import Mathlib

/-!
Verification development for the V2Crawler link-harvesting pipeline.

The Python sources are shallowly embedded: strings are `String`/`List Char`,
byte strings are `List Nat` (each entry < 256), fallible operations return
`Option`, stateful objects are passed explicit state records, and generators
are modelled as functions returning the finite list of yielded items.
ASCII restrictions of the model (`Char.toLower`, whitespace set) are noted
at the definitions they concern.
-/

namespace V2

/-! ### Python character and string primitives -/

/-- Default whitespace set of Python `str.strip` and of `\s` in the regex
patterns (ASCII part; the Unicode whitespace of Python `str` is outside the
model — no claim exercises it). -/
def pySpace (c : Char) : Bool :=
  c == ' ' || c == '\t' || c == '\n' || c == '\r' || c == '\x0b' || c == '\x0c'

/-- Python `str.strip()` on a character list. -/
def pyStrip (l : List Char) : List Char :=
  ((l.dropWhile pySpace).reverse.dropWhile pySpace).reverse

/-- Python `str.lower()` (ASCII part, via `Char.toLower`). -/
def pyLower (l : List Char) : List Char :=
  l.map Char.toLower

/-- `re.sub(r'#[^#]*$', '', link)`: drop the last `#` and everything after
it; identity when no `#` occurs. -/
def removeLastFragment (l : List Char) : List Char :=
  if l.contains '#' then ((l.reverse.dropWhile (fun c => c != '#')).tail).reverse
  else l

/-- Python `str.split(sep, 1)[0]`-style helper: the part strictly before the
first occurrence of `sep` (whole list when absent). -/
def beforeFirst (sep : Char) (l : List Char) : List Char :=
  l.takeWhile (fun c => c != sep)

/-- The part strictly after the first occurrence of `sep` (`none` when
absent), as in the second component of Python `str.split(sep, 1)`. -/
def afterFirst (sep : Char) (l : List Char) : Option (List Char) :=
  if l.contains sep then some ((l.dropWhile (fun c => c != sep)).tail) else none

/-- The part strictly after the last occurrence of `sep`; the whole list
when absent, as in `str.rpartition(sep)[2]`. -/
def afterLast (sep : Char) (l : List Char) : List Char :=
  (beforeFirst sep l.reverse).reverse

/-- The part strictly before the last occurrence of `sep` (`none` when
absent), as in Python `str.rsplit(sep, 1)[0]`. -/
def beforeLast (sep : Char) (l : List Char) : Option (List Char) :=
  (afterFirst sep l.reverse).map List.reverse

/-! ### Base64 (`base64.b64decode(s, validate=True)`, CPython 3.11)

With `validate=True`, `b64decode` is `binascii.a2b_base64(s, strict_mode=True)`:
non-alphabet characters are an error, padding may not lead the data, data may
not follow padding, a pad sequence that completes a 2- or 3-character quad
must end the input, and a leftover quad at the end of input is an error.
Pads following a completed quad are skipped. -/

/-- Value of a base64 alphabet character; `none` for `=` and all
non-alphabet characters. -/
def b64CharVal (c : Char) : Option Nat :=
  if 'A' ≤ c ∧ c ≤ 'Z' then some (c.toNat - 65)
  else if 'a' ≤ c ∧ c ≤ 'z' then some (c.toNat - 97 + 26)
  else if '0' ≤ c ∧ c ≤ '9' then some (c.toNat - 48 + 52)
  else if c = '+' then some 62
  else if c = '/' then some 63
  else none

/-- The three bytes of a full quad of 6-bit values. -/
def quadBytes (a b c d : Nat) : List Nat :=
  [a * 4 + b / 16, (b % 16) * 16 + c / 4, (c % 4) * 64 + d]

/-- The bytes of a quad completed by padding (2 or 3 data characters). -/
def partialBytes : List Nat → List Nat
  | [a, b] => [a * 4 + b / 16]
  | [a, b, c] => [a * 4 + b / 16, (b % 16) * 16 + c / 4]
  | _ => []

/-- `binascii.a2b_base64(·, strict_mode=True)` state machine.  `quad` holds
the 6-bit values of the current (incomplete) quad, `out` the bytes decoded
so far, `padStarted` whether a pad character has been seen, `pads` the pad
count inside the current quad. -/
def a2b64 : List Char → List Nat → List Nat → Bool → Nat → Option (List Nat)
  | [], quad, out, _, _ => if quad.length = 0 then some out else none
  | c :: rest, quad, out, padStarted, pads =>
    if c = '=' then
      if quad.length = 0 ∧ out = [] then none
      else if quad.length ≥ 2 ∧ quad.length + (pads + 1) ≥ 4 then
        if rest = [] then some (out ++ partialBytes quad) else none
      else a2b64 rest quad out true (if quad.length ≥ 2 then pads + 1 else pads)
    else
      match b64CharVal c with
      | none => none
      | some v =>
        if padStarted then none
        else
          match quad with
          | [a, b, c0] => a2b64 rest [] (out ++ quadBytes a b c0 v) false 0
          | _ => a2b64 rest (quad ++ [v]) out false pads

/-- `base64.b64decode(s, validate=True)` in CPython 3.11. -/
def b64decode (l : List Char) : Option (List Nat) :=
  a2b64 l [] [] false 0

example : b64decode "QUJD".data = some [65, 66, 67] := by decide
example : b64decode "QUJDQQ==".data = some [65, 66, 67, 65] := by decide
example : b64decode "QQ==".data = some [65] := by decide
example : b64decode "QUJD==".data = some [65, 66, 67] := by decide
example : b64decode "QUJD=".data = some [65, 66, 67] := by decide
example : b64decode "QQ=".data = none := by decide
example : b64decode "QQ".data = none := by decide
example : b64decode "".data = some [] := by decide
example : b64decode "QUJD====".data = some [65, 66, 67] := by decide
example : b64decode "aGk=aGk=".data = none := by decide
example : b64decode "QR==".data = some [65] := by decide
example : b64decode "QQQ=".data = some [65, 4] := by decide
example : b64decode "Q=".data = none := by decide
example : b64decode "QQ===".data = none := by decide
example : b64decode "=".data = none := by decide
example : b64decode "=QUJD".data = none := by decide
example : b64decode "QUJD=QQ".data = none := by decide

/-! ### UTF-8 decoding (`bytes.decode('utf-8')`, strict) -/

/-- Whether a byte is a UTF-8 continuation byte. -/
def isCont (b : Nat) : Bool := 0x80 ≤ b ∧ b ≤ 0xBF

/-- Strict UTF-8 decoding of a byte list, rejecting overlong encodings,
surrogates, and out-of-range code points, as Python `bytes.decode('utf-8')`
does. -/
def utf8Decode : List Nat → Option (List Char)
  | [] => some []
  | b :: rest =>
    if b < 0x80 then
      (utf8Decode rest).map (fun cs => Char.ofNat b :: cs)
    else if 0xC2 ≤ b ∧ b ≤ 0xDF then
      match rest with
      | b2 :: rest2 =>
        if isCont b2 then
          (utf8Decode rest2).map (fun cs => Char.ofNat ((b - 0xC0) * 64 + (b2 - 0x80)) :: cs)
        else none
      | _ => none
    else if 0xE0 ≤ b ∧ b ≤ 0xEF then
      match rest with
      | b2 :: b3 :: rest3 =>
        if isCont b2 ∧ isCont b3 ∧
            (b ≠ 0xE0 ∨ b2 ≥ 0xA0) ∧ (b ≠ 0xED ∨ b2 ≤ 0x9F) then
          (utf8Decode rest3).map (fun cs =>
            Char.ofNat ((b - 0xE0) * 4096 + (b2 - 0x80) * 64 + (b3 - 0x80)) :: cs)
        else none
      | _ => none
    else if 0xF0 ≤ b ∧ b ≤ 0xF4 then
      match rest with
      | b2 :: b3 :: b4 :: rest4 =>
        if isCont b2 ∧ isCont b3 ∧ isCont b4 ∧
            (b ≠ 0xF0 ∨ b2 ≥ 0x90) ∧ (b ≠ 0xF4 ∨ b2 ≤ 0x8F) then
          (utf8Decode rest4).map (fun cs =>
            Char.ofNat ((b - 0xF0) * 262144 + (b2 - 0x80) * 4096 +
              (b3 - 0x80) * 64 + (b4 - 0x80)) :: cs)
        else none
      | _ => none
    else none

example : utf8Decode [65, 66] = some ['A', 'B'] := by decide
example : utf8Decode [0xC3, 0xA9] = some ['é'] := by decide
example : utf8Decode [0xC3] = none := by decide
example : utf8Decode [0x80] = none := by decide
example : utf8Decode [0xE2, 0x82, 0xAC] = some ['€'] := by decide

/-! ### JSON (`json.loads`)

Model of Python `json.loads` restricted to integer numeric literals: a
literal with a fraction or exponent part is parsed by Python into an IEEE
float, which is outside this embedding, so the model parser rejects it.
Lone surrogate `\u` escapes (representable in a Python `str` but not as a
Unicode scalar value) are likewise rejected. -/

inductive Json where
  | jnull : Json
  | jbool : Bool → Json
  | jnum : Int → Json
  | jstr : String → Json
  | jarr : List Json → Json
  | jobj : List (String × Json) → Json

/-- JSON insignificant whitespace (exactly the four characters Python's
`json` module skips). -/
def jsonWs (c : Char) : Bool := c == ' ' || c == '\t' || c == '\n' || c == '\r'

/-- Drop leading JSON whitespace. -/
def skipWs (l : List Char) : List Char := l.dropWhile jsonWs

/-- Value of a hexadecimal digit. -/
def hexVal (c : Char) : Option Nat :=
  if '0' ≤ c ∧ c ≤ '9' then some (c.toNat - 48)
  else if 'a' ≤ c ∧ c ≤ 'f' then some (c.toNat - 97 + 10)
  else if 'A' ≤ c ∧ c ≤ 'F' then some (c.toNat - 65 + 10)
  else none

/-- Parse the body of a JSON string literal after the opening quote,
returning the content and the remainder after the closing quote. -/
def parseJStr : List Char → Option (List Char × List Char)
  | [] => none
  | '"' :: rest => some ([], rest)
  | '\\' :: 'u' :: h1 :: h2 :: h3 :: h4 :: rest =>
    (do
      let v1 ← hexVal h1
      let v2 ← hexVal h2
      let v3 ← hexVal h3
      let v4 ← hexVal h4
      let code := ((v1 * 16 + v2) * 16 + v3) * 16 + v4
      if 0xD800 ≤ code ∧ code ≤ 0xDBFF then
        match rest with
        | '\\' :: 'u' :: g1 :: g2 :: g3 :: g4 :: rest2 => do
          let w1 ← hexVal g1
          let w2 ← hexVal g2
          let w3 ← hexVal g3
          let w4 ← hexVal g4
          let lo := ((w1 * 16 + w2) * 16 + w3) * 16 + w4
          if 0xDC00 ≤ lo ∧ lo ≤ 0xDFFF then
            (parseJStr rest2).map (fun p =>
              (Char.ofNat (0x10000 + (code - 0xD800) * 1024 + (lo - 0xDC00)) :: p.1, p.2))
          else none
        | _ => none
      else if 0xDC00 ≤ code ∧ code ≤ 0xDFFF then none
      else (parseJStr rest).map (fun p => (Char.ofNat code :: p.1, p.2)))
  | '\\' :: e :: rest =>
    (do
      let c ← match e with
        | '"' => some '"'
        | '\\' => some '\\'
        | '/' => some '/'
        | 'b' => some '\x08'
        | 'f' => some '\x0c'
        | 'n' => some '\n'
        | 'r' => some '\r'
        | 't' => some '\t'
        | _ => none
      (parseJStr rest).map (fun p => (c :: p.1, p.2)))
  | c :: rest =>
    if c.toNat < 0x20 then none
    else (parseJStr rest).map (fun p => (c :: p.1, p.2))

/-- Whether a character is a decimal digit. -/
def isDigitCh (c : Char) : Bool := '0' ≤ c ∧ c ≤ '9'

/-- Natural number denoted by a digit run. -/
def digitsToNat (l : List Char) : Nat :=
  l.foldl (fun n c => n * 10 + (c.toNat - 48)) 0

/-- Parse a JSON number literal; integer literals only (see module note). -/
def parseJNum (l : List Char) : Option (Json × List Char) :=
  let (neg, l1) := match l with
    | '-' :: r => (true, r)
    | r => (false, r)
  let ds := l1.takeWhile isDigitCh
  let rest := l1.dropWhile isDigitCh
  if ds = [] then none
  else if ds.length > 1 ∧ ds.headD '0' = '0' then none
  else
    match rest with
    | '.' :: _ => none
    | 'e' :: _ => none
    | 'E' :: _ => none
    | _ =>
      let n : Int := Int.ofNat (digitsToNat ds)
      some (Json.jnum (if neg then -n else n), rest)

mutual

/-- Fuel-indexed parser for a JSON value (leading whitespace allowed). -/
def parseJVal : Nat → List Char → Option (Json × List Char)
  | 0, _ => none
  | Nat.succ f, l =>
    match skipWs l with
    | 'n' :: 'u' :: 'l' :: 'l' :: r => some (Json.jnull, r)
    | 't' :: 'r' :: 'u' :: 'e' :: r => some (Json.jbool true, r)
    | 'f' :: 'a' :: 'l' :: 's' :: 'e' :: r => some (Json.jbool false, r)
    | '"' :: r => (parseJStr r).map (fun p => (Json.jstr (String.mk p.1), p.2))
    | '[' :: r =>
      (match skipWs r with
      | ']' :: r2 => some (Json.jarr [], r2)
      | r2 => parseJArr f r2 [])
    | '{' :: r =>
      (match skipWs r with
      | '}' :: r2 => some (Json.jobj [], r2)
      | r2 => parseJObj f r2 [])
    | r => parseJNum r

/-- Parse the elements of a non-empty JSON array. -/
def parseJArr : Nat → List Char → List Json → Option (Json × List Char)
  | 0, _, _ => none
  | Nat.succ f, l, acc =>
    match parseJVal f l with
    | none => none
    | some (v, r) =>
      match skipWs r with
      | ',' :: r2 => parseJArr f r2 (acc ++ [v])
      | ']' :: r2 => some (Json.jarr (acc ++ [v]), r2)
      | _ => none

/-- Parse the members of a non-empty JSON object. -/
def parseJObj : Nat → List Char → List (String × Json) → Option (Json × List Char)
  | 0, _, _ => none
  | Nat.succ f, l, acc =>
    match skipWs l with
    | '"' :: r =>
      (match parseJStr r with
      | none => none
      | some (k, r2) =>
        match skipWs r2 with
        | ':' :: r3 =>
          (match parseJVal f r3 with
          | none => none
          | some (v, r4) =>
            match skipWs r4 with
            | ',' :: r5 => parseJObj f r5 (acc ++ [(String.mk k, v)])
            | '}' :: r5 => some (Json.jobj (acc ++ [(String.mk k, v)]), r5)
            | _ => none)
        | _ => none)
    | _ => none

end

/-- Python `json.loads`: parse one value and require only whitespace after
it. -/
def jsonLoads (l : List Char) : Option Json :=
  match parseJVal (2 * l.length + 2) l with
  | some (v, r) => if skipWs r = [] then some v else none
  | none => none

/-- Lookup in a decoded JSON object; a later duplicate key wins, as when
Python builds the dict. -/
def jGet (o : List (String × Json)) (k : String) : Option Json :=
  match o.reverse.find? (fun p => p.1 == k) with
  | some p => some p.2
  | none => none

/-- Python truthiness of a decoded JSON value. -/
def pyTruthy : Json → Bool
  | .jnull => false
  | .jbool b => b
  | .jnum n => n != 0
  | .jstr s => s != ""
  | .jarr xs => !xs.isEmpty
  | .jobj o => !o.isEmpty

/-- Python `int(s)` on a string: strip whitespace, optional sign, then a
non-empty decimal digit run.  (Underscore digit separators, which Python
also accepts, are outside the model; no claim exercises them.) -/
def pyIntOfChars (l : List Char) : Option Int :=
  let l1 := pyStrip l
  let core : List Char → Option Nat := fun ds =>
    if ds ≠ [] ∧ ds.all isDigitCh then some (digitsToNat ds) else none
  match l1 with
  | '+' :: ds => (core ds).map Int.ofNat
  | '-' :: ds => (core ds).map (fun n => -(Int.ofNat n))
  | ds => (core ds).map Int.ofNat

/-- Python `int(x)` on a decoded JSON value (`TypeError` on containers and
null is `none`). -/
def pyIntOfJson : Json → Option Int
  | .jnum n => some n
  | .jbool b => some (if b then 1 else 0)
  | .jstr s => pyIntOfChars s.data
  | _ => none

/-- Python `str(x)` on a decoded JSON value.  For containers Python renders
the full `repr`; no claim depends on that rendering, so the model uses an
opaque marker. -/
def pyStrOfJson : Json → String
  | .jstr s => s
  | .jnum n => toString n
  | .jbool b => if b then "True" else "False"
  | .jnull => "None"
  | .jarr _ => "<container>"
  | .jobj _ => "<container>"

example : jsonLoads "\x7b\"add\":\"a.com\",\"port\":\"443\"\x7d".data =
    some (Json.jobj [("add", Json.jstr "a.com"), ("port", Json.jstr "443")]) := rfl
example : jsonLoads "[1, -2, null]".data =
    some (Json.jarr [Json.jnum 1, Json.jnum (-2), Json.jnull]) := rfl
example : jsonLoads "1.5".data = none := rfl
example : jsonLoads "01".data = none := rfl
example : jsonLoads "\"a\\u00e9b\"".data = some (Json.jstr "aéb") := rfl
example : pyIntOfChars " +443 ".data = some 443 := rfl
example : pyIntOfChars "44x".data = none := rfl

/-! ### `duplicate.py` — `DuplicateChecker` -/

/-- Python `str.startswith` (case-sensitive), on character lists. -/
def startsWithL : List Char → List Char → Bool
  | [], _ => true
  | _ :: _, [] => false
  | a :: as, b :: bs => a == b && startsWithL as bs

/-- Python `link.startswith(p)` for strings. -/
def pyStartsWith (p link : String) : Bool := startsWithL p.data link.data

/-- `normalize_link`: drop a trailing `#fragment`, strip whitespace,
lowercase. -/
def normalize_link (link : String) : String :=
  String.mk (pyLower (pyStrip (removeLastFragment link.data)))

/-- The netloc of a URL whose scheme marker `scheme://` has `schemeLen`
characters: everything up to the first `/`, `?` or `#`
(`urllib.parse.urlparse`). -/
def netlocOf (schemeLen : Nat) (link : List Char) : List Char :=
  (link.drop schemeLen).takeWhile (fun c => c != '/' && c != '?' && c != '#')

/-- `f"{urlparse(link).hostname}:{urlparse(link).port}"` following
`urllib.parse`'s `_hostinfo`: host is the netloc after the last `@`,
lowercased (`None` when empty); the port must parse as a base-10 integer in
[0, 65535] or a `ValueError` escapes (`none`). -/
def urlHostPort (schemeLen : Nat) (link : List Char) : Option String :=
  let netloc := netlocOf schemeLen link
  let hostinfo := afterLast '@' netloc
  let hp : List Char × List Char :=
    if hostinfo.contains '[' then
      let bracketed := (hostinfo.dropWhile (fun c => c != '[')).tail
      (beforeFirst ']' bracketed,
        ((afterFirst ']' bracketed).getD []).dropWhile (fun c => c != ':') |>.tail)
    else
      (beforeFirst ':' hostinfo, ((afterFirst ':' hostinfo)).getD [])
  let hostStr := if hp.1 = [] then "None" else String.mk (pyLower hp.1)
  if hp.2 = [] then some (hostStr ++ ":None")
  else
    match pyIntOfChars hp.2 with
    | none => none
    | some p => if 0 ≤ p ∧ p ≤ 65535 then some (hostStr ++ ":" ++ toString p) else none

/-- `config.get(k, '')` as used when building the vmess signature: missing
keys default to `''`; a non-string value makes the later `'|'.flatten` raise
`TypeError` (`none`), sending `extract_config_signature` to its fallback. -/
def jGetStrOrMissing (o : List (String × Json)) (k : String) : Option String :=
  match jGet o k with
  | none => some ""
  | some (Json.jstr s) => some s
  | some _ => none

/-- `base64.b64decode(link[8:], validate=True).decode('utf-8')` followed by
`json.loads`: the decoded configuration of a vmess link. -/
def vmessConfig (link : List Char) : Option Json :=
  match b64decode (link.drop 8) with
  | none => none
  | some bytes =>
    match utf8Decode bytes with
    | none => none
    | some cs => jsonLoads cs

/-- `str(config.get('port', ''))` in the vmess signature. -/
def vmessPortPart (o : List (String × Json)) : String :=
  match jGet o "port" with
  | none => ""
  | some v => pyStrOfJson v

/-- The successful path of the `vmess://` branch of
`extract_config_signature`: base64-decode the body, UTF-8 decode, parse
JSON, and join the `add`/`port`/`id`/`net`/`type` fields with `|`.  Any
failure (`none`) routes to the fallback. -/
def vmessSigParts (link : List Char) : Option String :=
  match vmessConfig link with
  | some (Json.jobj o) =>
    (do
      let a ← jGetStrOrMissing o "add"
      let i ← jGetStrOrMissing o "id"
      let n ← jGetStrOrMissing o "net"
      let t ← jGetStrOrMissing o "type"
      some (a ++ "|" ++ vmessPortPart o ++ "|" ++ i ++ "|" ++ n ++ "|" ++ t))
  | _ => none

/-- `DuplicateChecker.extract_config_signature`. -/
def extract_config_signature (link : String) : String :=
  if pyStartsWith "vmess://" link then
    (vmessSigParts link.data).getD (normalize_link link)
  else if pyStartsWith "ss://" link then
    (let ld := link.data.drop 5
     if ld.contains '@' then
       let creds := beforeFirst '@' ld
       let server := (afterFirst '@' ld).getD []
       String.mk (creds ++ '@' :: beforeFirst '#' server)
     else normalize_link link)
  else if pyStartsWith "vless://" link then
    (urlHostPort 8 link.data).getD (normalize_link link)
  else if pyStartsWith "trojan://" link then
    (urlHostPort 9 link.data).getD (normalize_link link)
  else normalize_link link

/-- The mutable state of a `DuplicateChecker` (`seen_hashes`,
`seen_configs`); Python's sets are modelled as lists queried by
membership. -/
structure CheckerState where
  seen_hashes : List String
  seen_configs : List String

/-- A freshly constructed `DuplicateChecker`. -/
def initChecker : CheckerState := ⟨[], []⟩

/-- `DuplicateChecker.is_duplicate`: returns the verdict and the updated
checker state (first-seen links are recorded under both keys). -/
def is_duplicate (st : CheckerState) (link : String) : Bool × CheckerState :=
  if st.seen_hashes.contains (normalize_link link) ||
      st.seen_configs.contains (extract_config_signature link) then
    (true, st)
  else
    (false, ⟨normalize_link link :: st.seen_hashes,
      extract_config_signature link :: st.seen_configs⟩)

/-- Per-protocol link collections: a Python dict from protocol tag to link
list, in insertion order. -/
abbrev Links := List (String × List String)

/-- The five protocol tags, in the order of every dict literal in the
sources. -/
def protocols : List String := ["vmess", "vless", "ss", "trojan", "ssr"]

/-- The fresh `{'vmess': [], 'vless': [], 'ss': [], 'trojan': [], 'ssr': []}`
dict. -/
def emptyLinks : Links :=
  [("vmess", []), ("vless", []), ("ss", []), ("trojan", []), ("ssr", [])]

/-- `out[p].append(link)`.  (On a key absent from `out` Python would raise
`KeyError`; that branch is modelled as a no-op and is unreachable from the
five-protocol inputs the theorems quantify over.) -/
def appendAt (out : Links) (p : String) (link : String) : Links :=
  match out with
  | [] => []
  | (k, ls) :: rest =>
    if k = p then (k, ls ++ [link]) :: rest else (k, ls) :: appendAt rest p link

/-- The inner loop of `deduplicate_links` over one protocol's link list. -/
def dedupOverList : String → CheckerState → Links → Nat → List String →
    CheckerState × Links × Nat
  | _, st, out, cnt, [] => (st, out, cnt)
  | p, st, out, cnt, link :: ls =>
    match is_duplicate st link with
    | (true, st2) => dedupOverList p st2 out (cnt + 1) ls
    | (false, st2) => dedupOverList p st2 (appendAt out p link) cnt ls

/-- The outer loop of `deduplicate_links` over `links.items()`. -/
def dedupEntries : CheckerState → Links → Nat → Links → CheckerState × Links × Nat
  | st, out, cnt, [] => (st, out, cnt)
  | st, out, cnt, (p, ls) :: rest =>
    match dedupOverList p st out cnt ls with
    | (st2, out2, cnt2) => dedupEntries st2 out2 cnt2 rest

/-- `DuplicateChecker.deduplicate_links`: returns the updated checker
state, the deduplicated five-protocol dict, and the removal count. -/
def deduplicate_links (st : CheckerState) (links : Links) :
    CheckerState × Links × Nat :=
  dedupEntries st emptyLinks 0 links

example :
    (deduplicate_links initChecker
      [("vmess", ["vmess://QUJDQUJDQUJD", "vmess://QUJDQUJDQUJD"])]).2 =
    ([("vmess", ["vmess://QUJDQUJDQUJD"]), ("vless", []), ("ss", []),
      ("trojan", []), ("ssr", [])], 1) := rfl
example :
    extract_config_signature "vless://abc@Example.COM:443/path#tag" =
    "example.com:443" := rfl
example :
    extract_config_signature "ss://Y3JlZHM=@host:80#frag" =
    "Y3JlZHM=@host:80" := rfl

/-! ### Idempotence of `deduplicate_links` (claim C1) -/

/-- All links of a per-protocol dict, in bucket order. -/
def allOut (out : Links) : List String := (out.map Prod.snd).flatten

/-- Two links that collide on neither deduplication key. -/
def distinctKeys (a b : String) : Prop :=
  normalize_link a ≠ normalize_link b ∧
    extract_config_signature a ≠ extract_config_signature b

theorem distinctKeys_symm {a b : String} (h : distinctKeys a b) : distinctKeys b a :=
  ⟨h.1.symm, h.2.symm⟩

/-- Invariant tying a checker state to the links already kept: every kept
link is recorded under both keys, and kept links collide pairwise on
neither key. -/
def CheckerInv (st : CheckerState) (out : Links) : Prop :=
  (∀ x ∈ allOut out, normalize_link x ∈ st.seen_hashes ∧
      extract_config_signature x ∈ st.seen_configs) ∧
  (allOut out).Pairwise distinctKeys

theorem allOut_cons (p : String) (ls : List String) (rest : Links) :
    allOut ((p, ls) :: rest) = ls ++ allOut rest := by
  simp [allOut]

theorem allOut_appendAt (out : Links) (p l : String) :
    (allOut (appendAt out p l)).Perm (l :: allOut out) ∨
      allOut (appendAt out p l) = allOut out := by
  induction out with
  | nil => right; rfl
  | cons e rest ih =>
    obtain ⟨k, ls⟩ := e
    by_cases h : k = p
    · left
      subst h
      have e1 : appendAt ((k, ls) :: rest) k l = (k, ls ++ [l]) :: rest := by
        simp [appendAt]
      rw [e1, allOut_cons, allOut_cons]
      have e2 : (ls ++ [l]) ++ allOut rest = ls ++ l :: allOut rest := by simp
      rw [e2]
      exact List.perm_middle
    · have e1 : appendAt ((k, ls) :: rest) p l = (k, ls) :: appendAt rest p l := by
        simp [appendAt, h]
      rcases ih with hperm | heq
      · left
        rw [e1, allOut_cons, allOut_cons]
        exact (hperm.append_left ls).trans List.perm_middle
      · right
        rw [e1, allOut_cons, allOut_cons, heq]

theorem is_duplicate_false {st : CheckerState} {l : String} {st2 : CheckerState}
    (h : is_duplicate st l = (false, st2)) :
    normalize_link l ∉ st.seen_hashes ∧
      extract_config_signature l ∉ st.seen_configs ∧
      st2 = ⟨normalize_link l :: st.seen_hashes,
        extract_config_signature l :: st.seen_configs⟩ := by
  unfold is_duplicate at h
  split at h
  · simp at h
  · rename_i hcond
    simp only [Bool.or_eq_true, not_or] at hcond
    push_neg at hcond
    have h1 : normalize_link l ∉ st.seen_hashes := by
      intro hmem
      exact hcond.1 (by simpa using hmem)
    have h2 : extract_config_signature l ∉ st.seen_configs := by
      intro hmem
      exact hcond.2 (by simpa using hmem)
    have h3 := congrArg Prod.snd h
    exact ⟨h1, h2, h3.symm⟩

theorem is_duplicate_true {st : CheckerState} {l : String} {st2 : CheckerState}
    (h : is_duplicate st l = (true, st2)) : st2 = st := by
  unfold is_duplicate at h
  split at h
  · exact (congrArg Prod.snd h).symm
  · simp at h

theorem dedupOverList_inv (p : String) (ls : List String) :
    ∀ (st : CheckerState) (out : Links) (cnt : Nat), CheckerInv st out →
      CheckerInv (dedupOverList p st out cnt ls).1
        (dedupOverList p st out cnt ls).2.1 := by
  induction ls with
  | nil => intro st out cnt h; exact h
  | cons link ls ih =>
    intro st out cnt h
    rcases hdup : is_duplicate st link with ⟨b, st2⟩
    cases b
    · -- fresh link: recorded and appended
      obtain ⟨hn, hc, hst2⟩ := is_duplicate_false hdup
      have hkeep : dedupOverList p st out cnt (link :: ls) =
          dedupOverList p st2 (appendAt out p link) cnt ls := by
        simp [dedupOverList, hdup]
      rw [hkeep]
      apply ih
      subst hst2
      constructor
      · intro x hx
        rcases allOut_appendAt out p link with hperm | heq
        · rcases List.mem_cons.mp (hperm.mem_iff.mp hx) with hx1 | hx2
          · subst hx1
            exact ⟨List.mem_cons_self _ _, List.mem_cons_self _ _⟩
          · exact ⟨List.mem_cons_of_mem _ (h.1 x hx2).1,
              List.mem_cons_of_mem _ (h.1 x hx2).2⟩
        · rw [heq] at hx
          exact ⟨List.mem_cons_of_mem _ (h.1 x hx).1,
            List.mem_cons_of_mem _ (h.1 x hx).2⟩
      · rcases allOut_appendAt out p link with hperm | heq
        · refine (List.Perm.pairwise_iff (fun hxy => distinctKeys_symm hxy) hperm).mpr ?_
          refine List.Pairwise.cons ?_ h.2
          intro y hy
          refine ⟨fun hcontra => hn ?_, fun hcontra => hc ?_⟩
          · rw [hcontra]; exact (h.1 y hy).1
          · rw [hcontra]; exact (h.1 y hy).2
        · rw [heq]; exact h.2
    · -- duplicate: only the count changes
      have hst2 := is_duplicate_true hdup
      have hskip : dedupOverList p st out cnt (link :: ls) =
          dedupOverList p st2 out (cnt + 1) ls := by
        simp [dedupOverList, hdup]
      rw [hskip, hst2]
      exact ih st out (cnt + 1) h

theorem dedupEntries_inv (m : Links) :
    ∀ (st : CheckerState) (out : Links) (cnt : Nat), CheckerInv st out →
      CheckerInv (dedupEntries st out cnt m).1 (dedupEntries st out cnt m).2.1 := by
  induction m with
  | nil => intro st out cnt h; exact h
  | cons e rest ih =>
    intro st out cnt h
    obtain ⟨p, ls⟩ := e
    rcases hstep : dedupOverList p st out cnt ls with ⟨st2, out2, cnt2⟩
    have hinv2 := dedupOverList_inv p ls st out cnt h
    rw [hstep] at hinv2
    have heq : dedupEntries st out cnt ((p, ls) :: rest) =
        dedupEntries st2 out2 cnt2 rest := by
      simp [dedupEntries, hstep]
    rw [heq]
    exact ih st2 out2 cnt2 hinv2

theorem is_duplicate_true_mem {st : CheckerState} {l : String} {st2 : CheckerState}
    (h : is_duplicate st l = (true, st2)) :
    normalize_link l ∈ st.seen_hashes ∨ extract_config_signature l ∈ st.seen_configs := by
  unfold is_duplicate at h
  split at h
  · rename_i hcond
    simpa using hcond
  · simp at h

theorem is_duplicate_of_fresh {st : CheckerState} {l : String}
    (hn : normalize_link l ∉ st.seen_hashes)
    (hc : extract_config_signature l ∉ st.seen_configs) :
    is_duplicate st l = (false, ⟨normalize_link l :: st.seen_hashes,
      extract_config_signature l :: st.seen_configs⟩) := by
  rcases h : is_duplicate st l with ⟨b, st2⟩
  cases b
  · obtain ⟨_, _, hst⟩ := is_duplicate_false h
    rw [hst]
  · rcases is_duplicate_true_mem h with hm | hm
    · exact absurd hm hn
    · exact absurd hm hc

/-- Sequential `out[p].append(l)` over a list of links. -/
def appendList : Links → String → List String → Links
  | out, _, [] => out
  | out, p, l :: ls => appendList (appendAt out p l) p ls

/-- Sequential per-entry appends over a whole dict. -/
def appendEntries : Links → Links → Links
  | out, [] => out
  | out, (p, ls) :: rest => appendEntries (appendList out p ls) rest

theorem dedupOverList_fresh (p : String) (ls : List String) :
    ∀ (st : CheckerState) (out : Links) (cnt : Nat),
      (∀ l ∈ ls, normalize_link l ∉ st.seen_hashes ∧
        extract_config_signature l ∉ st.seen_configs) →
      ls.Pairwise distinctKeys →
      dedupOverList p st out cnt ls =
        (⟨(ls.map normalize_link).reverse ++ st.seen_hashes,
          (ls.map extract_config_signature).reverse ++ st.seen_configs⟩,
         appendList out p ls, cnt) := by
  induction ls with
  | nil =>
    intro st out cnt _ _
    simp [dedupOverList, appendList]
  | cons link ls ih =>
    intro st out cnt hfresh hpw
    have hl := hfresh link (List.mem_cons_self _ _)
    have hdup := is_duplicate_of_fresh hl.1 hl.2
    have hstep : dedupOverList p st out cnt (link :: ls) =
        dedupOverList p ⟨normalize_link link :: st.seen_hashes,
          extract_config_signature link :: st.seen_configs⟩
          (appendAt out p link) cnt ls := by
      simp [dedupOverList, hdup]
    obtain ⟨hhead, htail⟩ := List.pairwise_cons.mp hpw
    have hfresh2 : ∀ l2 ∈ ls,
        normalize_link l2 ∉ normalize_link link :: st.seen_hashes ∧
        extract_config_signature l2 ∉
          extract_config_signature link :: st.seen_configs := by
      intro l2 hl2
      have hd := hhead l2 hl2
      have hf := hfresh l2 (List.mem_cons_of_mem _ hl2)
      constructor
      · intro hmem
        rcases List.mem_cons.mp hmem with heq | hmem2
        · exact hd.1 heq.symm
        · exact hf.1 hmem2
      · intro hmem
        rcases List.mem_cons.mp hmem with heq | hmem2
        · exact hd.2 heq.symm
        · exact hf.2 hmem2
    rw [hstep, ih _ _ cnt hfresh2 htail]
    simp [appendList, List.append_assoc]

theorem dedupEntries_fresh (m : Links) :
    ∀ (st : CheckerState) (out : Links) (cnt : Nat),
      (∀ l ∈ allOut m, normalize_link l ∉ st.seen_hashes ∧
        extract_config_signature l ∉ st.seen_configs) →
      (allOut m).Pairwise distinctKeys →
      ∃ stf, dedupEntries st out cnt m = (stf, appendEntries out m, cnt) := by
  induction m with
  | nil =>
    intro st out cnt _ _
    exact ⟨st, rfl⟩
  | cons en rest ih =>
    intro st out cnt hfresh hpw
    obtain ⟨p, ls⟩ := en
    rw [allOut_cons] at hfresh hpw
    have hpw3 := List.pairwise_append.mp hpw
    have hfreshls : ∀ l ∈ ls, normalize_link l ∉ st.seen_hashes ∧
        extract_config_signature l ∉ st.seen_configs := by
      intro l hl
      exact hfresh l (List.mem_append_left _ hl)
    have h1 := dedupOverList_fresh p ls st out cnt hfreshls hpw3.1
    have hfresh2 : ∀ l ∈ allOut rest,
        normalize_link l ∉ (ls.map normalize_link).reverse ++ st.seen_hashes ∧
        extract_config_signature l ∉
          (ls.map extract_config_signature).reverse ++ st.seen_configs := by
      intro l hl
      have hf := hfresh l (List.mem_append_right _ hl)
      constructor
      · intro hmem
        rcases List.mem_append.mp hmem with hm1 | hm2
        · rw [List.mem_reverse] at hm1
          obtain ⟨l0, hl0, heq⟩ := List.mem_map.mp hm1
          exact (hpw3.2.2 l0 hl0 l hl).1 heq
        · exact hf.1 hm2
      · intro hmem
        rcases List.mem_append.mp hmem with hm1 | hm2
        · rw [List.mem_reverse] at hm1
          obtain ⟨l0, hl0, heq⟩ := List.mem_map.mp hm1
          exact (hpw3.2.2 l0 hl0 l hl).2 heq
        · exact hf.2 hm2
    obtain ⟨stf, h2⟩ := ih ⟨(ls.map normalize_link).reverse ++ st.seen_hashes,
      (ls.map extract_config_signature).reverse ++ st.seen_configs⟩
      (appendList out p ls) cnt hfresh2 hpw3.2.1
    refine ⟨stf, ?_⟩
    have hstep : dedupEntries st out cnt ((p, ls) :: rest) =
        dedupEntries ⟨(ls.map normalize_link).reverse ++ st.seen_hashes,
          (ls.map extract_config_signature).reverse ++ st.seen_configs⟩
          (appendList out p ls) cnt rest := by
      simp [dedupEntries, h1]
    rw [hstep, h2]
    rfl

theorem appendAt_keys (out : Links) (p l : String) :
    (appendAt out p l).map Prod.fst = out.map Prod.fst := by
  induction out with
  | nil => rfl
  | cons e rest ih =>
    obtain ⟨k, ls⟩ := e
    by_cases h : k = p <;> simp [appendAt, h, ih]

theorem dedupOverList_keys (p : String) (ls : List String) :
    ∀ (st : CheckerState) (out : Links) (cnt : Nat),
      ((dedupOverList p st out cnt ls).2.1).map Prod.fst = out.map Prod.fst := by
  induction ls with
  | nil => intro st out cnt; rfl
  | cons link ls ih =>
    intro st out cnt
    rcases hdup : is_duplicate st link with ⟨b, st2⟩
    cases b
    · have hstep : dedupOverList p st out cnt (link :: ls) =
          dedupOverList p st2 (appendAt out p link) cnt ls := by
        simp [dedupOverList, hdup]
      rw [hstep, ih st2 (appendAt out p link) cnt, appendAt_keys]
    · have hstep : dedupOverList p st out cnt (link :: ls) =
          dedupOverList p st2 out (cnt + 1) ls := by
        simp [dedupOverList, hdup]
      rw [hstep, ih st2 out (cnt + 1)]

theorem dedupEntries_keys (m : Links) :
    ∀ (st : CheckerState) (out : Links) (cnt : Nat),
      ((dedupEntries st out cnt m).2.1).map Prod.fst = out.map Prod.fst := by
  induction m with
  | nil => intro st out cnt; rfl
  | cons en rest ih =>
    intro st out cnt
    obtain ⟨p, ls⟩ := en
    rcases hstep : dedupOverList p st out cnt ls with ⟨st2, out2, cnt2⟩
    have hk := dedupOverList_keys p ls st out cnt
    rw [hstep] at hk
    have heq : dedupEntries st out cnt ((p, ls) :: rest) =
        dedupEntries st2 out2 cnt2 rest := by
      simp [dedupEntries, hstep]
    rw [heq, ih st2 out2 cnt2]
    exact hk

theorem links_shape (o : Links) (h : o.map Prod.fst = protocols) :
    ∃ a b c d e, o =
      [("vmess", a), ("vless", b), ("ss", c), ("trojan", d), ("ssr", e)] := by
  rcases o with _ | ⟨⟨k1, a⟩, _ | ⟨⟨k2, b⟩, _ | ⟨⟨k3, c⟩, _ | ⟨⟨k4, d⟩,
    _ | ⟨⟨k5, e⟩, rest⟩⟩⟩⟩⟩ <;> simp [protocols] at h
  obtain ⟨h1, h2, h3, h4, h5, h6⟩ := h
  subst h1; subst h2; subst h3; subst h4; subst h5; subst h6
  exact ⟨a, b, c, d, e, rfl⟩

theorem appendList_head_eq (p : String) (x : List String) (rest : Links)
    (ls : List String) :
    appendList ((p, x) :: rest) p ls = (p, x ++ ls) :: rest := by
  induction ls generalizing x with
  | nil => simp [appendList]
  | cons l ls ih =>
    simp only [appendList]
    rw [show appendAt ((p, x) :: rest) p l = (p, x ++ [l]) :: rest from by
      simp [appendAt]]
    rw [ih (x ++ [l])]
    simp

theorem appendList_skip (k : String) (x : List String) (rest : Links)
    (p : String) (ls : List String) (h : k ≠ p) :
    appendList ((k, x) :: rest) p ls = (k, x) :: appendList rest p ls := by
  induction ls generalizing rest with
  | nil => simp [appendList]
  | cons l ls ih =>
    simp only [appendList]
    rw [show appendAt ((k, x) :: rest) p l = (k, x) :: appendAt rest p l from by
      simp [appendAt, h]]
    exact ih (appendAt rest p l)

theorem appendEntries_canonical (a b c d e : List String) :
    appendEntries emptyLinks
      [("vmess", a), ("vless", b), ("ss", c), ("trojan", d), ("ssr", e)] =
      [("vmess", a), ("vless", b), ("ss", c), ("trojan", d), ("ssr", e)] := by
  have s1 : appendList emptyLinks "vmess" a =
      ("vmess", a) :: [("vless", []), ("ss", []), ("trojan", []), ("ssr", [])] := by
    rw [show emptyLinks = ("vmess", ([] : List String)) ::
      [("vless", []), ("ss", []), ("trojan", []), ("ssr", [])] from rfl]
    rw [appendList_head_eq]
    simp
  have s2 : appendList
      (("vmess", a) :: [("vless", []), ("ss", []), ("trojan", []), ("ssr", [])])
      "vless" b =
      ("vmess", a) :: ("vless", b) :: [("ss", []), ("trojan", []), ("ssr", [])] := by
    rw [appendList_skip _ _ _ _ _ (by decide), appendList_head_eq]
    simp
  have s3 : appendList
      (("vmess", a) :: ("vless", b) :: [("ss", []), ("trojan", []), ("ssr", [])])
      "ss" c =
      ("vmess", a) :: ("vless", b) :: ("ss", c) :: [("trojan", []), ("ssr", [])] := by
    rw [appendList_skip _ _ _ _ _ (by decide), appendList_skip _ _ _ _ _ (by decide),
      appendList_head_eq]
    simp
  have s4 : appendList
      (("vmess", a) :: ("vless", b) :: ("ss", c) :: [("trojan", []), ("ssr", [])])
      "trojan" d =
      ("vmess", a) :: ("vless", b) :: ("ss", c) :: ("trojan", d) :: [("ssr", [])] := by
    rw [appendList_skip _ _ _ _ _ (by decide), appendList_skip _ _ _ _ _ (by decide),
      appendList_skip _ _ _ _ _ (by decide), appendList_head_eq]
    simp
  have s5 : appendList
      (("vmess", a) :: ("vless", b) :: ("ss", c) :: ("trojan", d) :: [("ssr", [])])
      "ssr" e =
      [("vmess", a), ("vless", b), ("ss", c), ("trojan", d), ("ssr", e)] := by
    rw [appendList_skip _ _ _ _ _ (by decide), appendList_skip _ _ _ _ _ (by decide),
      appendList_skip _ _ _ _ _ (by decide), appendList_skip _ _ _ _ _ (by decide),
      appendList_head_eq]
    simp
  show appendEntries emptyLinks _ = _
  simp only [appendEntries]
  rw [s1, s2, s3, s4, s5]

/-- C1: Deduplication is idempotent.  For every per-protocol mapping of
link lists `m` (keys among the five protocol tags), running
`DuplicateChecker.deduplicate_links` on a fresh checker and then running it
again, on a fresh checker, over its own output returns that output
unchanged with a duplicate count of zero. -/
theorem C1_dedup_idempotent (m : Links) (_hk : ∀ en ∈ m, en.1 ∈ protocols)
    (st1 : CheckerState) (out1 : Links) (cnt1 : Nat)
    (h1 : deduplicate_links initChecker m = (st1, out1, cnt1)) :
    ∃ st2, deduplicate_links initChecker out1 = (st2, out1, 0) := by
  have hinv0 : CheckerInv initChecker emptyLinks := by
    constructor
    · intro x hx
      simp [allOut, emptyLinks] at hx
    · simp [allOut, emptyLinks]
  have hinv := dedupEntries_inv m initChecker emptyLinks 0 hinv0
  have h1e : dedupEntries initChecker emptyLinks 0 m = (st1, out1, cnt1) := h1
  rw [h1e] at hinv
  have hkeys := dedupEntries_keys m initChecker emptyLinks 0
  rw [h1e] at hkeys
  have hkeys2 : out1.map Prod.fst = protocols := by
    rw [hkeys]; rfl
  obtain ⟨a, b, c, d, e, rfl⟩ := links_shape out1 hkeys2
  have hfresh : ∀ l ∈ allOut [("vmess", a), ("vless", b), ("ss", c),
      ("trojan", d), ("ssr", e)],
      normalize_link l ∉ initChecker.seen_hashes ∧
      extract_config_signature l ∉ initChecker.seen_configs := by
    intro l _
    exact ⟨List.not_mem_nil _, List.not_mem_nil _⟩
  obtain ⟨stf, h2⟩ := dedupEntries_fresh _ initChecker emptyLinks 0 hfresh hinv.2
  rw [appendEntries_canonical] at h2
  exact ⟨stf, h2⟩

/-- Witness for C1 at a concrete mapping containing a repeated link. -/
theorem C1_dedup_idempotent_witness :
    ∃ st2, deduplicate_links initChecker
        (deduplicate_links initChecker
          [("vmess", ["vmess://QUJDQUJDQUJD", "vmess://QUJDQUJDQUJD"]),
           ("ss", ["ss://Y3JlZHM=@h:80"])]).2.1 =
      (st2, (deduplicate_links initChecker
          [("vmess", ["vmess://QUJDQUJDQUJD", "vmess://QUJDQUJDQUJD"]),
           ("ss", ["ss://Y3JlZHM=@h:80"])]).2.1, 0) :=
  C1_dedup_idempotent _ (by decide) _ _ _ rfl


/-! ### Signature-based duplicate recognition (claim C2) -/

theorem jGetStrOrMissing_congr {o1 o2 : List (String × Json)} {k : String}
    (h : jGet o1 k = jGet o2 k) :
    jGetStrOrMissing o1 k = jGetStrOrMissing o2 k := by
  unfold jGetStrOrMissing
  rw [h]

theorem vmessPortPart_congr {o1 o2 : List (String × Json)}
    (h : jGet o1 "port" = jGet o2 "port") :
    vmessPortPart o1 = vmessPortPart o2 := by
  unfold vmessPortPart
  rw [h]

theorem vmessSigParts_of_config {l : List Char} {o : List (String × Json)}
    {sa si sn sy : String}
    (hc : vmessConfig l = some (Json.jobj o))
    (ha : jGetStrOrMissing o "add" = some sa)
    (hi : jGetStrOrMissing o "id" = some si)
    (hn : jGetStrOrMissing o "net" = some sn)
    (ht : jGetStrOrMissing o "type" = some sy) :
    vmessSigParts l =
      some (sa ++ "|" ++ vmessPortPart o ++ "|" ++ si ++ "|" ++ sn ++ "|" ++ sy) := by
  unfold vmessSigParts
  rw [hc]
  simp [ha, hi, hn, ht]

/-- C2: For every two `vmess://` links whose base64 bodies decode to JSON
configurations with identical `add`, `port`, `id`, `net` and `type` fields
(of string shape where the signature requires it), after the first link has
been recorded by `is_duplicate` on a checker, `is_duplicate` returns `true`
for the second link — they are recognized as duplicates via the
configuration signature even when their raw texts (base64 padding, `ps`
display name) differ. -/
theorem C2_vmess_signature_duplicate
    (st st1 : CheckerState) (l1 l2 : String)
    (o1 o2 : List (String × Json)) (sa si sn sy : String)
    (hpre1 : pyStartsWith "vmess://" l1 = true)
    (hpre2 : pyStartsWith "vmess://" l2 = true)
    (hc1 : vmessConfig l1.data = some (Json.jobj o1))
    (hc2 : vmessConfig l2.data = some (Json.jobj o2))
    (hadd : jGet o1 "add" = jGet o2 "add")
    (hport : jGet o1 "port" = jGet o2 "port")
    (hid : jGet o1 "id" = jGet o2 "id")
    (hnet : jGet o1 "net" = jGet o2 "net")
    (htype : jGet o1 "type" = jGet o2 "type")
    (ha : jGetStrOrMissing o1 "add" = some sa)
    (hi : jGetStrOrMissing o1 "id" = some si)
    (hn : jGetStrOrMissing o1 "net" = some sn)
    (ht : jGetStrOrMissing o1 "type" = some sy)
    (hrec : is_duplicate st l1 = (false, st1)) :
    (is_duplicate st1 l2).1 = true := by
  have hsig1 : extract_config_signature l1 =
      sa ++ "|" ++ vmessPortPart o1 ++ "|" ++ si ++ "|" ++ sn ++ "|" ++ sy := by
    unfold extract_config_signature
    rw [if_pos hpre1]
    rw [vmessSigParts_of_config hc1 ha hi hn ht]
    rfl
  have hsig2 : extract_config_signature l2 = extract_config_signature l1 := by
    have ha2 := (jGetStrOrMissing_congr hadd).symm.trans ha
    have hi2 := (jGetStrOrMissing_congr hid).symm.trans hi
    have hn2 := (jGetStrOrMissing_congr hnet).symm.trans hn
    have ht2 := (jGetStrOrMissing_congr htype).symm.trans ht
    have hp2 := (vmessPortPart_congr hport).symm
    unfold extract_config_signature
    rw [if_pos hpre2, if_pos hpre1]
    rw [vmessSigParts_of_config hc1 ha hi hn ht,
      vmessSigParts_of_config hc2 ha2 hi2 hn2 ht2]
    simp [hp2]
  obtain ⟨_, _, hst1⟩ := is_duplicate_false hrec
  subst hst1
  unfold is_duplicate
  rw [if_pos]
  simp only [Bool.or_eq_true]
  right
  rw [hsig2]
  simp

/-- Witness for C2: two concrete vmess links, identical in
`add`/`port`/`id`/`net`/`type`, differing in `ps` and in base64 padding
(`==` versus `=`). -/
theorem C2_vmess_signature_duplicate_witness :
    (is_duplicate
      (is_duplicate initChecker
        "vmess://eyJhZGQiOiJleGFtcGxlLmNvbSIsInBvcnQiOiI0NDMiLCJpZCI6ImFiYyIsIm5ldCI6IndzIiwidHlwZSI6Im5vbmUiLCJwcyI6IngifQ==").2
      "vmess://eyJhZGQiOiJleGFtcGxlLmNvbSIsInBvcnQiOiI0NDMiLCJpZCI6ImFiYyIsIm5ldCI6IndzIiwidHlwZSI6Im5vbmUiLCJwcyI6Inl5In0=").1 = true :=
  C2_vmess_signature_duplicate initChecker
    (is_duplicate initChecker
      "vmess://eyJhZGQiOiJleGFtcGxlLmNvbSIsInBvcnQiOiI0NDMiLCJpZCI6ImFiYyIsIm5ldCI6IndzIiwidHlwZSI6Im5vbmUiLCJwcyI6IngifQ==").2
    "vmess://eyJhZGQiOiJleGFtcGxlLmNvbSIsInBvcnQiOiI0NDMiLCJpZCI6ImFiYyIsIm5ldCI6IndzIiwidHlwZSI6Im5vbmUiLCJwcyI6IngifQ=="
    "vmess://eyJhZGQiOiJleGFtcGxlLmNvbSIsInBvcnQiOiI0NDMiLCJpZCI6ImFiYyIsIm5ldCI6IndzIiwidHlwZSI6Im5vbmUiLCJwcyI6Inl5In0="
    [("add", Json.jstr "example.com"), ("port", Json.jstr "443"),
     ("id", Json.jstr "abc"), ("net", Json.jstr "ws"),
     ("type", Json.jstr "none"), ("ps", Json.jstr "x")]
    [("add", Json.jstr "example.com"), ("port", Json.jstr "443"),
     ("id", Json.jstr "abc"), ("net", Json.jstr "ws"),
     ("type", Json.jstr "none"), ("ps", Json.jstr "yy")]
    "example.com" "abc" "ws" "none"
    rfl rfl rfl rfl rfl rfl rfl rfl rfl rfl rfl rfl rfl rfl

/-! ### `extractor.py` — the five compiled patterns

Each pattern `proto://<body>(?=\s|$|vmess://|vless://|ss://|trojan://|ssr://)`
is compiled with `re.IGNORECASE` and scanned with `findall`.  The patterns
are specialised here: a greedy class repetition followed by `@` never
backtracks (the separator is outside the class), a greedy `{lo,}` repetition
followed only by the lookahead backtracks from the maximal run to the
longest end position where the lookahead holds, and a lazy `[^\s]+?` or
`[^\s]*?` extends to the first position where the lookahead holds. -/

/-- Case-insensitive prefix match of a lowercase pattern literal, as under
`re.IGNORECASE` (ASCII case folding). -/
def ciStartsWith : List Char → List Char → Bool
  | [], _ => true
  | _ :: _, [] => false
  | p :: ps, c :: cs => p == c.toLower && ciStartsWith ps cs

/-- One of the five protocol prefixes starts here (the lookahead
alternatives other than `\s` and `$`). -/
def protoStartAt (s : List Char) : Bool :=
  ciStartsWith "vmess://".data s || ciStartsWith "vless://".data s ||
  ciStartsWith "ss://".data s || ciStartsWith "trojan://".data s ||
  ciStartsWith "ssr://".data s

/-- The lookahead `(?=\s|$|vmess://|vless://|ss://|trojan://|ssr://)`. -/
def lookaheadOk (s : List Char) : Bool :=
  match s with
  | [] => true
  | c :: _ => pySpace c || protoStartAt s

/-- The `[A-Za-z0-9+/=]` class of the vmess/ss/ssr patterns. -/
def isB64ExtCh (c : Char) : Bool :=
  ('A' ≤ c && c ≤ 'Z') || ('a' ≤ c && c ≤ 'z') || ('0' ≤ c && c ≤ '9') ||
  c == '+' || c == '/' || c == '='

/-- The `[a-f0-9\-]` class of the vless/trojan patterns; `re.IGNORECASE`
also admits `A`–`F`. -/
def isHexDashCh (c : Char) : Bool :=
  ('a' ≤ c && c ≤ 'f') || ('A' ≤ c && c ≤ 'F') || ('0' ≤ c && c ≤ '9') || c == '-'

/-- The `[^\s#]` class of the ss pattern's server part. -/
def isServerCh (c : Char) : Bool := !(pySpace c) && c != '#'

/-- Backtracking of a greedy `{lo,}` class repetition followed by the
lookahead: the largest `k` in `[lo, hi]` with the lookahead holding after
`k` characters of `rest`. -/
def greedyPick (rest : List Char) (lo : Nat) : Nat → Option Nat
  | 0 => if lo = 0 && lookaheadOk rest then some 0 else none
  | Nat.succ k =>
    if Nat.succ k < lo then none
    else if lookaheadOk (rest.drop (Nat.succ k)) then some (Nat.succ k)
    else greedyPick rest lo k

/-- `[^\s]+?(?=L)`: the shortest non-empty run of non-whitespace characters
after which the lookahead holds. -/
def lazyRunLen : List Char → Option Nat
  | [] => none
  | c :: rest =>
    if pySpace c then none
    else if lookaheadOk rest then some 1
    else (lazyRunLen rest).map (· + 1)

/-- `[^\s]*?(?=L)`: the shortest (possibly empty) run of non-whitespace
characters after which the lookahead holds. -/
def lazyStarLen : List Char → Option Nat
  | [] => some 0
  | c :: rest =>
    if lookaheadOk (c :: rest) then some 0
    else if pySpace c then none
    else (lazyStarLen rest).map (· + 1)

/-- Length of a match of the vmess pattern anchored at the head of `s`. -/
def vmessMatchLen (s : List Char) : Option Nat :=
  if ciStartsWith "vmess://".data s then
    match greedyPick (s.drop 8) 8 ((s.drop 8).takeWhile isB64ExtCh).length with
    | some k => some (8 + k)
    | none => none
  else none

/-- Length of a match of the ssr pattern anchored at the head of `s`. -/
def ssrMatchLen (s : List Char) : Option Nat :=
  if ciStartsWith "ssr://".data s then
    match greedyPick (s.drop 6) 12 ((s.drop 6).takeWhile isB64ExtCh).length with
    | some k => some (6 + k)
    | none => none
  else none

/-- Length of a match of the vless pattern anchored at the head of `s`:
exactly 36 `[a-f0-9\-]` characters, `@`, then a lazy non-whitespace run. -/
def vlessMatchLen (s : List Char) : Option Nat :=
  if ciStartsWith "vless://".data s then
    if ((s.drop 8).take 36).length = 36 && ((s.drop 8).take 36).all isHexDashCh then
      match (s.drop 8).drop 36 with
      | '@' :: after =>
        match lazyRunLen after with
        | some j => some (8 + 36 + 1 + j)
        | none => none
      | _ => none
    else none
  else none

/-- Length of a match of the trojan pattern anchored at the head of `s`:
at least 8 `[a-f0-9\-]` characters (the maximal run, since `@` is outside
the class), `@`, then a lazy non-whitespace run. -/
def trojanMatchLen (s : List Char) : Option Nat :=
  if ciStartsWith "trojan://".data s then
    if ((s.drop 9).takeWhile isHexDashCh).length ≥ 8 then
      match (s.drop 9).drop ((s.drop 9).takeWhile isHexDashCh).length with
      | '@' :: after =>
        match lazyRunLen after with
        | some j => some (9 + ((s.drop 9).takeWhile isHexDashCh).length + 1 + j)
        | none => none
      | _ => none
    else none
  else none

/-- Length of a match of the ss pattern anchored at the head of `s`: a
maximal `[A-Za-z0-9+/=]` run of at least 8, `@`, a maximal non-empty
`[^\s#]` run, then an optional `#`-fragment extended lazily to the first
lookahead position. -/
def ssMatchLen (s : List Char) : Option Nat :=
  if ciStartsWith "ss://".data s then
    if ((s.drop 5).takeWhile isB64ExtCh).length ≥ 8 then
      match (s.drop 5).drop ((s.drop 5).takeWhile isB64ExtCh).length with
      | '@' :: after =>
        if (after.takeWhile isServerCh).length ≥ 1 then
          match after.drop (after.takeWhile isServerCh).length with
          | '#' :: frag =>
            (match lazyStarLen frag with
            | some j => some (5 + ((s.drop 5).takeWhile isB64ExtCh).length + 1 +
                (after.takeWhile isServerCh).length + 1 + j)
            | none => none)
          | tail =>
            if lookaheadOk tail then
              some (5 + ((s.drop 5).takeWhile isB64ExtCh).length + 1 +
                (after.takeWhile isServerCh).length)
            else none
        else none
      | _ => none
    else none
  else none

/-- Fuel-indexed scan of `pattern.findall(text)`: try the pattern at each
position left to right, record each leftmost match, and resume at its end
(after an empty match, at the next character).  Each step consumes at least
one character while the fuel decreases by one, so fuel equal to the input
length never runs out. -/
def findallF (matchLen : List Char → Option Nat) : Nat → List Char → List (List Char)
  | 0, _ => []
  | _, [] => []
  | Nat.succ f, c :: rest =>
    match matchLen (c :: rest) with
    | some (Nat.succ k) => (c :: rest).take (k + 1) :: findallF matchLen f (rest.drop k)
    | some 0 => [] :: findallF matchLen f rest
    | none => findallF matchLen f rest

/-- `pattern.findall(text)`. -/
def findall (matchLen : List Char → Option Nat) (l : List Char) : List (List Char) :=
  findallF matchLen l.length l

/-! ### `extractor.py` — validation -/

/-- `VPNLinkExtractor.is_valid_base64`: pad to a multiple of four, then
strict-decode; exceptions are `False`. -/
def is_valid_base64 (s : List Char) : Bool :=
  if s.length < 4 then false
  else
    (b64decode (if s.length % 4 ≠ 0 then
      s ++ List.replicate (4 - s.length % 4) '=' else s)).isSome

/-- Truthiness check `field in config and config[field]` for one required
vmess field. -/
def fieldTruthy (o : List (String × Json)) (k : String) : Bool :=
  match jGet o k with
  | none => false
  | some v => pyTruthy v

/-- The required-field and port checks of `validate_vmess_link` on the
decoded configuration.  A non-object configuration always fails: either a
required field is reported missing, or the subscript raises and the outer
`except` returns `False`. -/
def vmessFieldsOk : Json → Bool
  | Json.jobj o =>
    fieldTruthy o "add" && fieldTruthy o "port" && fieldTruthy o "id" &&
    fieldTruthy o "ps" &&
    (match (jGet o "port").bind pyIntOfJson with
     | none => false
     | some p => decide (1 ≤ p ∧ p ≤ 65535))
  | _ => false

/-- `VPNLinkExtractor.validate_vmess_link`. -/
def validate_vmess_link (link : String) : Bool :=
  if !(pyStartsWith "vmess://" link) then false
  else
    let ld := link.data.drop 8
    if !(is_valid_base64 ld) then false
    else
      match b64decode ld with
      | none => false
      | some bytes =>
        match utf8Decode bytes with
        | none => false
        | some dec =>
          match jsonLoads dec with
          | none => false
          | some config => vmessFieldsOk config

/-- `VPNLinkExtractor.validate_ss_link`. -/
def validate_ss_link (link : String) : Bool :=
  if !(pyStartsWith "ss://" link) then false
  else
    let ld := link.data.drop 5
    if !(ld.contains '@') then false
    else
      let creds := beforeFirst '@' ld
      let server_info := (afterFirst '@' ld).getD []
      if !(is_valid_base64 creds) then false
      else
        let server_part := beforeFirst '#' server_info
        if !(server_part.contains ':') then false
        else
          let host := (beforeLast ':' server_part).getD []
          let port := afterLast ':' server_part
          if host.isEmpty || port.isEmpty then false
          else
            match pyIntOfChars port with
            | none => false
            | some pn =>
              if !(decide (1 ≤ pn ∧ pn ≤ 65535)) then false
              else
                match b64decode creds with
                | none => false
                | some bytes =>
                  match utf8Decode bytes with
                  | none => false
                  | some dec => dec.contains ':'

/-- `link.split('://')[0]`: the part before the first occurrence of the
substring `://` (the whole string when absent). -/
def beforeScheme : List Char → List Char
  | [] => []
  | ':' :: '/' :: '/' :: _ => []
  | c :: rest => c :: beforeScheme rest

/-- `VPNLinkExtractor.validate_link`: prefix check, minimum length, no
newline/carriage-return/tab. -/
def validate_link (link : String) : Bool :=
  if pyStartsWith "vmess://" link || pyStartsWith "vless://" link ||
      pyStartsWith "ss://" link || pyStartsWith "trojan://" link ||
      pyStartsWith "ssr://" link then
    if link.data.length ≤ (beforeScheme link.data).length + 10 then false
    else if link.data.contains '\n' || link.data.contains '\r' ||
        link.data.contains '\t' then false
    else true
  else false

/-- The `if`/`elif` filter applied to each pattern match inside
`extract_links`. -/
def keepMatch (protocol : String) (m : String) : Bool :=
  if protocol == "ss" && !(validate_ss_link m) then false
  else if protocol == "vmess" && !(validate_vmess_link m) then false
  else validate_link m

/-- `VPNLinkExtractor.extract_links`: per-protocol `findall` then the
validation filter, in the dict order of `self.patterns`. -/
def extract_links (text : String) : Links :=
  [("vmess", ((findall vmessMatchLen text.data).map String.mk).filter (keepMatch "vmess")),
   ("vless", ((findall vlessMatchLen text.data).map String.mk).filter (keepMatch "vless")),
   ("ss", ((findall ssMatchLen text.data).map String.mk).filter (keepMatch "ss")),
   ("trojan", ((findall trojanMatchLen text.data).map String.mk).filter (keepMatch "trojan")),
   ("ssr", ((findall ssrMatchLen text.data).map String.mk).filter (keepMatch "ssr"))]

/-- `links[p]` on a per-protocol dict (first binding; the dicts built here
have unique keys). -/
def getProto (ls : Links) (p : String) : List String :=
  match ls.find? (fun e => e.1 == p) with
  | some e => e.2
  | none => []

/-! ### Generic facts about the pattern scan -/

theorem startsWithL_iff (p m : List Char) : startsWithL p m = true ↔ p <+: m := by
  induction p generalizing m with
  | nil => simp [startsWithL]
  | cons a ps ih =>
    cases m with
    | nil => simp [startsWithL]
    | cons b ms =>
      simp [startsWithL, ih, List.cons_prefix_cons]

theorem ciStartsWith_length_le {p s : List Char} (h : ciStartsWith p s = true) :
    p.length ≤ s.length := by
  induction p generalizing s with
  | nil => simp
  | cons a ps ih =>
    cases s with
    | nil => simp [ciStartsWith] at h
    | cons c cs =>
      simp only [ciStartsWith, Bool.and_eq_true] at h
      simpa using ih h.2

theorem ciStartsWith_take {p s : List Char} {n : Nat}
    (h : ciStartsWith p s = true) (hn : p.length ≤ n) :
    ciStartsWith p (s.take n) = true := by
  induction p generalizing s n with
  | nil => simp [ciStartsWith]
  | cons a ps ih =>
    cases s with
    | nil => simp [ciStartsWith] at h
    | cons c cs =>
      cases n with
      | zero => simp at hn
      | succ n2 =>
        simp only [List.take_succ_cons, ciStartsWith, Bool.and_eq_true] at h ⊢
        exact ⟨h.1, ih h.2 (by simpa using hn)⟩

theorem ciStartsWith_mem_lower {p s : List Char} (h : ciStartsWith p s = true)
    {c : Char} (hc : c ∈ s.take p.length) : Char.toLower c ∈ p := by
  induction p generalizing s with
  | nil => simp at hc
  | cons a ps ih =>
    cases s with
    | nil => simp [ciStartsWith] at h
    | cons b bs =>
      simp only [ciStartsWith, Bool.and_eq_true, beq_iff_eq] at h
      simp only [List.length_cons, List.take_succ_cons, List.mem_cons] at hc
      rcases hc with rfl | hc
      · rw [← h.1]
        exact List.mem_cons_self _ _
      · exact List.mem_cons_of_mem _ (ih h.2 hc)

theorem take_all_of_le_takeWhile {f : Char → Bool} {l : List Char} {k : Nat}
    (h : k ≤ (l.takeWhile f).length) : (l.take k).all f = true := by
  induction l generalizing k with
  | nil => simp
  | cons c cs ih =>
    cases k with
    | zero => simp
    | succ k2 =>
      by_cases hf : f c
      · simp only [List.takeWhile_cons, if_pos hf, List.length_cons] at h
        simp only [List.take_succ_cons, List.all_cons, hf, Bool.true_and]
        exact ih (by omega)
      · simp [List.takeWhile_cons, hf] at h

theorem takeWhile_length_le (f : Char → Bool) (l : List Char) :
    (l.takeWhile f).length ≤ l.length := by
  induction l with
  | nil => simp
  | cons c cs ih =>
    by_cases hf : f c <;> simp [List.takeWhile_cons, hf] <;> omega

theorem findallF_mem {matchLen : List Char → Option Nat} :
    ∀ (f : Nat) (l m : List Char), m ∈ findallF matchLen f l →
      ∃ s k, s <:+ l ∧ matchLen s = some k ∧ m = s.take k := by
  intro f
  induction f with
  | zero =>
    intro l m hm
    simp [findallF] at hm
  | succ f2 ih =>
    intro l m hm
    cases l with
    | nil => simp [findallF] at hm
    | cons c rest =>
      rcases hml : matchLen (c :: rest) with _ | k
      · rw [show findallF matchLen (Nat.succ f2) (c :: rest) =
            findallF matchLen f2 rest from by simp [findallF, hml]] at hm
        obtain ⟨s, k, hs, hk, hmk⟩ := ih rest m hm
        exact ⟨s, k, hs.trans (List.suffix_cons c rest), hk, hmk⟩
      · cases k with
        | zero =>
          rw [show findallF matchLen (Nat.succ f2) (c :: rest) =
              [] :: findallF matchLen f2 rest from by simp [findallF, hml]] at hm
          rcases List.mem_cons.mp hm with rfl | hm2
          · exact ⟨c :: rest, 0, List.suffix_refl _, hml, rfl⟩
          · obtain ⟨s, k, hs, hk, hmk⟩ := ih rest m hm2
            exact ⟨s, k, hs.trans (List.suffix_cons c rest), hk, hmk⟩
        | succ k2 =>
          rw [show findallF matchLen (Nat.succ f2) (c :: rest) =
              (c :: rest).take (k2 + 1) :: findallF matchLen f2 (rest.drop k2)
              from by simp [findallF, hml]] at hm
          rcases List.mem_cons.mp hm with rfl | hm2
          · exact ⟨c :: rest, k2 + 1, List.suffix_refl _, hml, rfl⟩
          · obtain ⟨s, k, hs, hk, hmk⟩ := ih (rest.drop k2) m hm2
            refine ⟨s, k, ?_, hk, hmk⟩
            exact (hs.trans (List.drop_suffix k2 rest)).trans (List.suffix_cons c rest)

theorem findall_mem {matchLen : List Char → Option Nat} {l m : List Char}
    (hm : m ∈ findall matchLen l) :
    ∃ s k, s <:+ l ∧ matchLen s = some k ∧ m = s.take k :=
  findallF_mem l.length l m hm

theorem findall_infix {matchLen : List Char → Option Nat} {l m : List Char}
    (hm : m ∈ findall matchLen l) : m <:+: l := by
  obtain ⟨s, k, hs, _, rfl⟩ := findall_mem hm
  exact (s.take_prefix k).isInfix.trans hs.isInfix

/-! ### Structure of successful strict base64 decodes

These lemmas characterise the inputs `binascii.a2b_base64(·, strict_mode=True)`
accepts: data characters followed only by padding, with the data a multiple
of four long (trailing pads free) or completed to a quad by exactly the
right pads.  They give the implication needed by claims C6/C7: a body that
strict-decodes also passes `is_valid_base64`'s pad-and-decode check. -/

/-- A base64 alphabet (data) character. -/
def isDataCh (c : Char) : Bool := (b64CharVal c).isSome

theorem isDataCh_ne_pad {c : Char} (h : isDataCh c = true) : c ≠ '=' := by
  intro e
  rw [e] at h
  simp [isDataCh, b64CharVal] at h

theorem a2b64_shape :
    ∀ (l : List Char) (quad out : List Nat) (padSt : Bool) (pads : Nat)
      (res : List Nat), a2b64 l quad out padSt pads = some res →
      ∃ ds ps, l = ds ++ ps ∧ ds.all isDataCh = true ∧
        ps.all (fun c => c == '=') = true ∧ (padSt = true → ds = []) := by
  intro l
  induction l with
  | nil =>
    intro quad out padSt pads res _
    exact ⟨[], [], by simp, by simp, by simp, fun _ => rfl⟩
  | cons c rest ih =>
    intro quad out padSt pads res h
    by_cases hpad : c = '='
    · subst hpad
      rw [show a2b64 ('=' :: rest) quad out padSt pads =
          (if quad.length = 0 ∧ out = [] then none
           else if quad.length ≥ 2 ∧ quad.length + (pads + 1) ≥ 4 then
             (if rest = [] then some (out ++ partialBytes quad) else none)
           else a2b64 rest quad out true
             (if quad.length ≥ 2 then pads + 1 else pads)) from by
        simp [a2b64]] at h
      split at h
      · simp at h
      · split at h
        · split at h
          · rename_i hrest
            subst hrest
            exact ⟨[], ['='], rfl, by simp, by simp, fun _ => rfl⟩
          · simp at h
        · obtain ⟨ds, ps, hl, hds, hps, himp⟩ := ih quad out true _ res h
          rw [himp rfl, List.nil_append] at hl
          refine ⟨[], '=' :: ps, ?_, by simp, by simp [hps], fun _ => rfl⟩
          simp [hl]
    · rcases hv : b64CharVal c with _ | v
      · rw [show a2b64 (c :: rest) quad out padSt pads = none from by
          simp [a2b64, hpad, hv]] at h
        simp at h
      · by_cases hpst : padSt = true
        · rw [show a2b64 (c :: rest) quad out padSt pads = none from by
            simp [a2b64, hpad, hv, hpst]] at h
          simp at h
        · have hpst2 : padSt = false := by
            cases padSt
            · rfl
            · exact absurd rfl hpst
          subst hpst2
          have hnext : ∃ quad2 out2 pads2, a2b64 (c :: rest) quad out false pads =
              a2b64 rest quad2 out2 false pads2 := by
            rcases quad with _ | ⟨a, _ | ⟨b, _ | ⟨c0, _ | ⟨d, t⟩⟩⟩⟩
            · exact ⟨[v], out, pads, by simp [a2b64, hpad, hv]⟩
            · exact ⟨[a, v], out, pads, by simp [a2b64, hpad, hv]⟩
            · exact ⟨[a, b, v], out, pads, by simp [a2b64, hpad, hv]⟩
            · exact ⟨[], out ++ quadBytes a b c0 v, 0, by simp [a2b64, hpad, hv]⟩
            · exact ⟨a :: b :: c0 :: d :: t ++ [v], out, pads, by simp [a2b64, hpad, hv]⟩
          obtain ⟨quad2, out2, pads2, heq⟩ := hnext
          rw [heq] at h
          obtain ⟨ds, ps, hl, hds, hps, _⟩ := ih quad2 out2 false pads2 res h
          subst hl
          refine ⟨c :: ds, ps, by simp, ?_, hps, by simp⟩
          simp [isDataCh, hv, hds]

theorem a2b64_pad_tail :
    ∀ (ps : List Char), ps.all (fun c => c == '=') = true →
      ∀ (out : List Nat) (b : Bool) (pads : Nat), out ≠ [] →
        a2b64 ps [] out b pads = some out := by
  intro ps
  induction ps with
  | nil =>
    intro _ out b pads _
    simp [a2b64]
  | cons c tl ih =>
    intro hall out b pads hout
    simp only [List.all_cons, Bool.and_eq_true, beq_iff_eq] at hall
    rw [hall.1]
    rw [show a2b64 ('=' :: tl) [] out b pads = a2b64 tl [] out true pads from by
      simp [a2b64, hout]]
    exact ih hall.2 out true pads hout

theorem a2b64_quad1_none :
    ∀ (ps : List Char), ps.all (fun c => c == '=') = true →
      ∀ (v : Nat) (out : List Nat) (b : Bool) (pads : Nat),
        a2b64 ps [v] out b pads = none := by
  intro ps
  induction ps with
  | nil =>
    intro _ v out b pads
    simp [a2b64]
  | cons c tl ih =>
    intro hall v out b pads
    simp only [List.all_cons, Bool.and_eq_true, beq_iff_eq] at hall
    rw [hall.1]
    rw [show a2b64 ('=' :: tl) [v] out b pads = a2b64 tl [v] out true pads from by
      simp [a2b64]]
    exact ih hall.2 v out true pads

theorem a2b64_quad2_pads :
    ∀ (ps : List Char), ps.all (fun c => c == '=') = true →
      ∀ (v1 v2 : Nat) (out res : List Nat) (b : Bool),
        a2b64 ps [v1, v2] out b 0 = some res → ps.length = 2 := by
  intro ps hall v1 v2 out res b h
  match ps, hall with
  | [], _ => simp [a2b64] at h
  | [c], hall =>
    simp only [List.all_cons, Bool.and_eq_true, beq_iff_eq] at hall
    rw [hall.1] at h
    rw [show a2b64 ['='] [v1, v2] out b 0 = a2b64 [] [v1, v2] out true 1 from by
      simp [a2b64]] at h
    simp [a2b64] at h
  | c :: c2 :: tl, hall =>
    simp only [List.all_cons, Bool.and_eq_true, beq_iff_eq] at hall
    rw [hall.1, hall.2.1] at h
    rw [show a2b64 ('=' :: '=' :: tl) [v1, v2] out b 0 =
        (if tl = [] then some (out ++ partialBytes [v1, v2]) else none) from by
      simp [a2b64]] at h
    split at h
    · rename_i htl
      simp [htl]
    · simp at h

theorem a2b64_quad3_pads :
    ∀ (ps : List Char), ps.all (fun c => c == '=') = true →
      ∀ (v1 v2 v3 : Nat) (out res : List Nat) (b : Bool),
        a2b64 ps [v1, v2, v3] out b 0 = some res → ps.length = 1 := by
  intro ps hall v1 v2 v3 out res b h
  match ps, hall with
  | [], _ => simp [a2b64] at h
  | c :: tl, hall =>
    simp only [List.all_cons, Bool.and_eq_true, beq_iff_eq] at hall
    rw [hall.1] at h
    rw [show a2b64 ('=' :: tl) [v1, v2, v3] out b 0 =
        (if tl = [] then some (out ++ partialBytes [v1, v2, v3]) else none) from by
      simp [a2b64]] at h
    split at h
    · rename_i htl
      simp [htl]
    · simp at h

theorem a2b64_data_chunk (n : Nat) :
    ∀ (ds : List Char), ds.length = n → ds.all isDataCh = true → n % 4 = 0 →
      ∀ (rest : List Char) (out : List Nat),
        ∃ extra, a2b64 (ds ++ rest) [] out false 0 =
          a2b64 rest [] (out ++ extra) false 0 ∧ (ds = [] ∨ extra ≠ []) := by
  induction n using Nat.strong_induction_on with
  | _ n ih =>
    intro ds hlen hall hmod rest out
    match ds, hlen with
    | [], _ => exact ⟨[], by simp, Or.inl rfl⟩
    | [c1], hlen => simp at hlen; omega
    | [c1, c2], hlen => simp at hlen; omega
    | [c1, c2, c3], hlen => simp at hlen; omega
    | c1 :: c2 :: c3 :: c4 :: tl, hlen =>
      simp only [List.length_cons] at hlen
      simp only [List.all_cons, Bool.and_eq_true] at hall
      obtain ⟨h1, h2, h3, h4, htl⟩ := hall
      obtain ⟨v1, hv1⟩ := Option.isSome_iff_exists.mp h1
      obtain ⟨v2, hv2⟩ := Option.isSome_iff_exists.mp h2
      obtain ⟨v3, hv3⟩ := Option.isSome_iff_exists.mp h3
      obtain ⟨v4, hv4⟩ := Option.isSome_iff_exists.mp h4
      have hne1 := isDataCh_ne_pad h1
      have hne2 := isDataCh_ne_pad h2
      have hne3 := isDataCh_ne_pad h3
      have hne4 := isDataCh_ne_pad h4
      have hstep : a2b64 ((c1 :: c2 :: c3 :: c4 :: tl) ++ rest) [] out false 0 =
          a2b64 (tl ++ rest) [] (out ++ quadBytes v1 v2 v3 v4) false 0 := by
        simp [a2b64, hne1, hv1, hne2, hv2, hne3, hv3, hne4, hv4]
      have htlmod : tl.length % 4 = 0 := by omega
      obtain ⟨extra, heq, _⟩ :=
        ih tl.length (by omega) tl rfl htl htlmod rest (out ++ quadBytes v1 v2 v3 v4)
      refine ⟨quadBytes v1 v2 v3 v4 ++ extra, ?_, Or.inr (by simp [quadBytes])⟩
      rw [hstep, heq, List.append_assoc]

theorem b64_mod_ne_case {l : List Char} {res : List Nat}
    (h : b64decode l = some res) (hmod : l.length % 4 ≠ 0) :
    ∃ ds ps, l = ds ++ ps ∧ ds.all isDataCh = true ∧
      ps.all (fun c => c == '=') = true ∧ ds ≠ [] ∧ ds.length % 4 = 0 := by
  obtain ⟨ds, ps, rfl, hds, hps, _⟩ := a2b64_shape l [] [] false 0 res h
  have hdsne : ds ≠ [] := by
    intro hnil
    subst hnil
    simp only [List.nil_append] at h hmod
    cases hp : ps with
    | nil =>
      subst hp
      simp at hmod
    | cons c tl =>
      subst hp
      simp only [List.all_cons, Bool.and_eq_true, beq_iff_eq] at hps
      rw [hps.1] at h
      rw [show b64decode ('=' :: tl) = none from by simp [b64decode, a2b64]] at h
      simp at h
  by_cases hdsmod : ds.length % 4 = 0
  · exact ⟨ds, ps, rfl, hds, hps, hdsne, hdsmod⟩
  · exfalso
    -- split the data into full quads and a 1–3 character remainder
    have hds1 : ds = ds.take (4 * (ds.length / 4)) ++ ds.drop (4 * (ds.length / 4)) :=
      (List.take_append_drop _ _).symm
    have hq4 : 4 * (ds.length / 4) ≤ ds.length := Nat.mul_div_le ds.length 4 |>.trans_eq rfl
    have htake_all : (ds.take (4 * (ds.length / 4))).all isDataCh = true := by
      refine List.all_eq_true.mpr ?_
      intro x hx
      exact List.all_eq_true.mp hds x (List.mem_of_mem_take hx)
    have hdrop_all : (ds.drop (4 * (ds.length / 4))).all isDataCh = true := by
      refine List.all_eq_true.mpr ?_
      intro x hx
      exact List.all_eq_true.mp hds x (List.mem_of_mem_drop hx)
    have htake_len : (ds.take (4 * (ds.length / 4))).length = 4 * (ds.length / 4) := by
      simp [List.length_take]
      omega
    obtain ⟨extra, heq, _⟩ := a2b64_data_chunk (4 * (ds.length / 4))
      (ds.take (4 * (ds.length / 4))) htake_len htake_all (by omega)
      (ds.drop (4 * (ds.length / 4)) ++ ps) []
    unfold b64decode at h
    rw [show (ds ++ ps) = ds.take (4 * (ds.length / 4)) ++
        (ds.drop (4 * (ds.length / 4)) ++ ps) from by
      rw [← List.append_assoc, List.take_append_drop]] at h
    rw [heq] at h
    have hdlen : (ds.drop (4 * (ds.length / 4))).length = ds.length % 4 := by
      simp [List.length_drop]
      omega
    have hlt : ds.length % 4 < 4 := Nat.mod_lt _ (by omega)
    rcases hdrop : ds.drop (4 * (ds.length / 4)) with _ | ⟨c1, _ | ⟨c2, _ | ⟨c3, _ | ⟨c4, t⟩⟩⟩⟩
    · rw [hdrop] at hdlen
      simp at hdlen
      omega
    all_goals rw [hdrop] at hdlen hdrop_all h
    · -- remainder 1: always fails
      simp only [List.all_cons, Bool.and_eq_true] at hdrop_all
      obtain ⟨v1, hv1⟩ := Option.isSome_iff_exists.mp hdrop_all.1
      rw [show a2b64 ([c1] ++ ps) [] ([] ++ extra) false 0 =
          a2b64 ps [v1] ([] ++ extra) false 0 from by
        simp [a2b64, isDataCh_ne_pad hdrop_all.1, hv1]] at h
      rw [a2b64_quad1_none ps hps v1 ([] ++ extra) false 0] at h
      simp at h
    · -- remainder 2: pads must be exactly 2, contradicting the length
      simp only [List.all_cons, Bool.and_eq_true] at hdrop_all
      obtain ⟨v1, hv1⟩ := Option.isSome_iff_exists.mp hdrop_all.1
      obtain ⟨v2, hv2⟩ := Option.isSome_iff_exists.mp hdrop_all.2.1
      rw [show a2b64 ([c1, c2] ++ ps) [] ([] ++ extra) false 0 =
          a2b64 ps [v1, v2] ([] ++ extra) false 0 from by
        simp [a2b64, isDataCh_ne_pad hdrop_all.1, hv1,
          isDataCh_ne_pad hdrop_all.2.1, hv2]] at h
      have hps2 := a2b64_quad2_pads ps hps v1 v2 ([] ++ extra) res false h
      simp only [List.length_cons, List.length_nil] at hdlen
      have : (ds ++ ps).length % 4 = 0 := by
        simp only [List.length_append]
        omega
      exact hmod this
    · -- remainder 3: pads must be exactly 1, contradicting the length
      simp only [List.all_cons, Bool.and_eq_true] at hdrop_all
      obtain ⟨v1, hv1⟩ := Option.isSome_iff_exists.mp hdrop_all.1
      obtain ⟨v2, hv2⟩ := Option.isSome_iff_exists.mp hdrop_all.2.1
      obtain ⟨v3, hv3⟩ := Option.isSome_iff_exists.mp hdrop_all.2.2.1
      rw [show a2b64 ([c1, c2, c3] ++ ps) [] ([] ++ extra) false 0 =
          a2b64 ps [v1, v2, v3] ([] ++ extra) false 0 from by
        simp [a2b64, isDataCh_ne_pad hdrop_all.1, hv1,
          isDataCh_ne_pad hdrop_all.2.1, hv2, isDataCh_ne_pad hdrop_all.2.2.1, hv3]] at h
      have hps3 := a2b64_quad3_pads ps hps v1 v2 v3 ([] ++ extra) res false h
      simp only [List.length_cons, List.length_nil] at hdlen
      have : (ds ++ ps).length % 4 = 0 := by
        simp only [List.length_append]
        omega
      exact hmod this
    · -- remainder of length at least 4 is impossible
      simp only [List.length_cons] at hdlen
      omega

theorem is_valid_of_decode {l : List Char} {res : List Nat}
    (h : b64decode l = some res) (hlen : 4 ≤ l.length) :
    is_valid_base64 l = true := by
  by_cases hmod : l.length % 4 = 0
  · simp [is_valid_base64, hmod, h, Nat.not_lt.mpr hlen]
  · obtain ⟨ds, ps, rfl, hds, hps, hdsne, hdsmod⟩ := b64_mod_ne_case h hmod
    obtain ⟨extra, heq, hor⟩ := a2b64_data_chunk ds.length ds rfl hds hdsmod
      (ps ++ List.replicate (4 - (ds ++ ps).length % 4) '=') []
    have hextra : extra ≠ [] := by
      rcases hor with hnil | hx
      · exact absurd hnil hdsne
      · exact hx
    have hpads : (ps ++ List.replicate (4 - (ds ++ ps).length % 4) '=').all
        (fun c => c == '=') = true := by
      simp only [List.all_append, hps, Bool.true_and]
      simp [List.all_eq_true]
    have hdec : b64decode ((ds ++ ps) ++ List.replicate (4 - (ds ++ ps).length % 4) '=') =
        some ([] ++ extra) := by
      unfold b64decode
      rw [List.append_assoc, heq]
      exact a2b64_pad_tail _ hpads ([] ++ extra) false 0 (by simpa using hextra)
    unfold is_valid_base64
    rw [if_neg (Nat.not_lt.mpr hlen), if_pos hmod, hdec]
    rfl

/-! ### Shapes of pattern matches -/

theorem greedyPick_bounds {rest : List Char} {lo : Nat} :
    ∀ {k v : Nat}, greedyPick rest lo k = some v → lo ≤ v ∧ v ≤ k := by
  intro k
  induction k with
  | zero =>
    intro v h
    simp only [greedyPick] at h
    split at h
    · rename_i hc
      simp only [Bool.and_eq_true, decide_eq_true_eq] at hc
      cases h
      omega
    · simp at h
  | succ k2 ih =>
    intro v h
    simp only [greedyPick] at h
    split at h
    · simp at h
    · rename_i hge
      split at h
      · cases h
        omega
      · obtain ⟨h1, h2⟩ := ih h
        exact ⟨h1, by omega⟩

theorem vmessMatchLen_shape {s : List Char} {n : Nat}
    (h : vmessMatchLen s = some n) :
    ∃ k, n = 8 + k ∧ 8 ≤ k ∧ 8 + k ≤ s.length ∧
      ciStartsWith "vmess://".data s = true ∧
      ((s.drop 8).take k).all isB64ExtCh = true := by
  unfold vmessMatchLen at h
  split at h
  · rename_i hci
    rcases hg : greedyPick (s.drop 8) 8 ((s.drop 8).takeWhile isB64ExtCh).length
      with _ | k
    · rw [hg] at h
      simp at h
    · rw [hg] at h
      obtain ⟨hlo, hhi⟩ := greedyPick_bounds hg
      have hrun_le : ((s.drop 8).takeWhile isB64ExtCh).length ≤ (s.drop 8).length :=
        takeWhile_length_le _ _
      have hslen : 8 ≤ s.length := by
        simpa using ciStartsWith_length_le hci
      have hdroplen : (s.drop 8).length = s.length - 8 := by simp
      cases h
      exact ⟨k, rfl, hlo, by omega, hci, take_all_of_le_takeWhile hhi⟩
  · simp at h

theorem ssrMatchLen_shape {s : List Char} {n : Nat}
    (h : ssrMatchLen s = some n) :
    ciStartsWith "ssr://".data s = true ∧ 18 ≤ n ∧ n ≤ s.length ∧
      ((s.drop 6).take (n - 6)).all isB64ExtCh = true := by
  unfold ssrMatchLen at h
  split at h
  · rename_i hci
    rcases hg : greedyPick (s.drop 6) 12 ((s.drop 6).takeWhile isB64ExtCh).length
      with _ | k
    · rw [hg] at h
      simp at h
    · rw [hg] at h
      obtain ⟨hlo, hhi⟩ := greedyPick_bounds hg
      have hrun_le : ((s.drop 6).takeWhile isB64ExtCh).length ≤ (s.drop 6).length :=
        takeWhile_length_le _ _
      have hslen : 6 ≤ s.length := by
        simpa using ciStartsWith_length_le hci
      have hdroplen : (s.drop 6).length = s.length - 6 := by simp
      cases h
      refine ⟨hci, by omega, by omega, ?_⟩
      have : 6 + k - 6 = k := by omega
      rw [this]
      exact take_all_of_le_takeWhile hhi
  · simp at h

theorem lazyRunLen_bounds {l : List Char} :
    ∀ {j : Nat}, lazyRunLen l = some j →
      1 ≤ j ∧ j ≤ l.length ∧ (l.take j).all (fun c => !(pySpace c)) = true := by
  induction l with
  | nil =>
    intro j h
    simp [lazyRunLen] at h
  | cons c rest ih =>
    intro j h
    simp only [lazyRunLen] at h
    split at h
    · simp at h
    · rename_i hsp
      have hspf : pySpace c = false := by
        cases hh : pySpace c
        · rfl
        · exact absurd hh hsp
      split at h
      · cases h
        simp [hspf]
      · rcases hrec : lazyRunLen rest with _ | j2
        · rw [hrec] at h
          simp at h
        · rw [hrec] at h
          simp only [Option.map_some'] at h
          obtain ⟨h1, h2, h3⟩ := ih hrec
          cases h
          simp only [List.take_succ_cons, List.all_cons, List.length_cons]
          refine ⟨by omega, by omega, by simp [hspf, h3]⟩

theorem lazyStarLen_bounds {l : List Char} :
    ∀ {j : Nat}, lazyStarLen l = some j →
      j ≤ l.length ∧ (l.take j).all (fun c => !(pySpace c)) = true := by
  induction l with
  | nil =>
    intro j h
    simp only [lazyStarLen] at h
    cases h
    simp
  | cons c rest ih =>
    intro j h
    simp only [lazyStarLen] at h
    split at h
    · cases h
      simp
    · split at h
      · simp at h
      · rename_i hla hsp
        have hspf : pySpace c = false := by
          cases hh : pySpace c
          · rfl
          · exact absurd hh hsp
        rcases hrec : lazyStarLen rest with _ | j2
        · rw [hrec] at h
          simp at h
        · rw [hrec] at h
          simp only [Option.map_some'] at h
          obtain ⟨h1, h2⟩ := ih hrec
          cases h
          simp only [List.take_succ_cons, List.all_cons, List.length_cons]
          refine ⟨by omega, by simp [hspf, h2]⟩

/-! ### The extraction filter per protocol -/

theorem keepMatch_vmess (m : String) :
    keepMatch "vmess" m = (validate_vmess_link m && validate_link m) := by
  have h1 : (("vmess" : String) == "ss") = false := by decide
  have h2 : (("vmess" : String) == "vmess") = true := by decide
  cases h : validate_vmess_link m <;> simp [keepMatch, h1, h2, h]

theorem keepMatch_ss (m : String) :
    keepMatch "ss" m = (validate_ss_link m && validate_link m) := by
  have h1 : (("ss" : String) == "ss") = true := by decide
  cases h : validate_ss_link m <;> simp [keepMatch, h1, h]

theorem keepMatch_vless (m : String) : keepMatch "vless" m = validate_link m := by
  have h1 : (("vless" : String) == "ss") = false := by decide
  have h2 : (("vless" : String) == "vmess") = false := by decide
  simp [keepMatch, h1, h2]

theorem keepMatch_trojan (m : String) : keepMatch "trojan" m = validate_link m := by
  have h1 : (("trojan" : String) == "ss") = false := by decide
  have h2 : (("trojan" : String) == "vmess") = false := by decide
  simp [keepMatch, h1, h2]

theorem keepMatch_ssr (m : String) : keepMatch "ssr" m = validate_link m := by
  have h1 : (("ssr" : String) == "ss") = false := by decide
  have h2 : (("ssr" : String) == "vmess") = false := by decide
  simp [keepMatch, h1, h2]

theorem validate_vmess_link_starts {m : String}
    (h : validate_vmess_link m = true) : pyStartsWith "vmess://" m = true := by
  unfold validate_vmess_link at h
  split at h
  · simp at h
  · rename_i hc
    simpa using hc

theorem validate_ss_link_starts {m : String}
    (h : validate_ss_link m = true) : pyStartsWith "ss://" m = true := by
  unfold validate_ss_link at h
  split at h
  · simp at h
  · rename_i hc
    simpa using hc

/-- The five exact prefixes pairwise conflict with the case-insensitive
patterns within the pattern length, so a match of one pattern that passes
`validate_link`'s case-sensitive prefix check starts with its own
protocol's exact lowercase prefix. -/
theorem validate_link_disj {m : String} (hv : validate_link m = true) :
    pyStartsWith "vmess://" m = true ∨ pyStartsWith "vless://" m = true ∨
    pyStartsWith "ss://" m = true ∨ pyStartsWith "trojan://" m = true ∨
    pyStartsWith "ssr://" m = true := by
  unfold validate_link at hv
  split at hv
  · rename_i hdisj
    simp only [Bool.or_eq_true] at hdisj
    tauto
  · simp at hv

theorem ci_vless_ne_vmess (t : List Char) :
    ciStartsWith "vless://".data ("vmess://".data ++ t) = false := rfl

theorem ci_vless_ne_ss (t : List Char) :
    ciStartsWith "vless://".data ("ss://".data ++ t) = false := rfl

theorem ci_vless_ne_trojan (t : List Char) :
    ciStartsWith "vless://".data ("trojan://".data ++ t) = false := rfl

theorem ci_vless_ne_ssr (t : List Char) :
    ciStartsWith "vless://".data ("ssr://".data ++ t) = false := rfl

theorem ci_trojan_ne_vmess (t : List Char) :
    ciStartsWith "trojan://".data ("vmess://".data ++ t) = false := rfl

theorem ci_trojan_ne_vless (t : List Char) :
    ciStartsWith "trojan://".data ("vless://".data ++ t) = false := rfl

theorem ci_trojan_ne_ss (t : List Char) :
    ciStartsWith "trojan://".data ("ss://".data ++ t) = false := rfl

theorem ci_trojan_ne_ssr (t : List Char) :
    ciStartsWith "trojan://".data ("ssr://".data ++ t) = false := rfl

theorem ci_ssr_ne_vmess (t : List Char) :
    ciStartsWith "ssr://".data ("vmess://".data ++ t) = false := rfl

theorem ci_ssr_ne_vless (t : List Char) :
    ciStartsWith "ssr://".data ("vless://".data ++ t) = false := rfl

theorem ci_ssr_ne_ss (t : List Char) :
    ciStartsWith "ssr://".data ("ss://".data ++ t) = false := rfl

theorem ci_ssr_ne_trojan (t : List Char) :
    ciStartsWith "ssr://".data ("trojan://".data ++ t) = false := rfl

theorem exact_prefix_of_ci_vless {m : String}
    (hci : ciStartsWith "vless://".data m.data = true)
    (hv : validate_link m = true) : pyStartsWith "vless://" m = true := by
  rcases validate_link_disj hv with h | h | h | h | h
  all_goals first
    | exact h
    | (obtain ⟨t, ht⟩ := (startsWithL_iff _ _).mp h
       rw [← ht] at hci
       first
         | rw [ci_vless_ne_vmess] at hci
         | rw [ci_vless_ne_ss] at hci
         | rw [ci_vless_ne_trojan] at hci
         | rw [ci_vless_ne_ssr] at hci
       simp at hci)

theorem exact_prefix_of_ci_trojan {m : String}
    (hci : ciStartsWith "trojan://".data m.data = true)
    (hv : validate_link m = true) : pyStartsWith "trojan://" m = true := by
  rcases validate_link_disj hv with h | h | h | h | h
  all_goals first
    | exact h
    | (obtain ⟨t, ht⟩ := (startsWithL_iff _ _).mp h
       rw [← ht] at hci
       first
         | rw [ci_trojan_ne_vmess] at hci
         | rw [ci_trojan_ne_vless] at hci
         | rw [ci_trojan_ne_ss] at hci
         | rw [ci_trojan_ne_ssr] at hci
       simp at hci)

theorem exact_prefix_of_ci_ssr {m : String}
    (hci : ciStartsWith "ssr://".data m.data = true)
    (hv : validate_link m = true) : pyStartsWith "ssr://" m = true := by
  rcases validate_link_disj hv with h | h | h | h | h
  all_goals first
    | exact h
    | (obtain ⟨t, ht⟩ := (startsWithL_iff _ _).mp h
       rw [← ht] at hci
       first
         | rw [ci_ssr_ne_vmess] at hci
         | rw [ci_ssr_ne_vless] at hci
         | rw [ci_ssr_ne_ss] at hci
         | rw [ci_ssr_ne_trojan] at hci
       simp at hci)

theorem vlessMatchLen_ci {s : List Char} {n : Nat} (h : vlessMatchLen s = some n) :
    ciStartsWith "vless://".data s = true ∧ 8 ≤ n := by
  unfold vlessMatchLen at h
  split at h
  · rename_i hci
    refine ⟨hci, ?_⟩
    split at h
    · split at h
      · split at h
        · rename_i j
          cases h
          omega
        · simp at h
      · simp at h
    · simp at h
  · simp at h

theorem trojanMatchLen_ci {s : List Char} {n : Nat} (h : trojanMatchLen s = some n) :
    ciStartsWith "trojan://".data s = true ∧ 9 ≤ n := by
  unfold trojanMatchLen at h
  split at h
  · rename_i hci
    refine ⟨hci, ?_⟩
    split at h
    · split at h
      · split at h
        · cases h
          omega
        · simp at h
      · simp at h
    · simp at h
  · simp at h

/-- C10: For every input string, `extract_links` returns — without raising,
every function in the chain being total — a mapping whose keys are exactly
the five protocol tags `vmess`, `vless`, `ss`, `trojan`, `ssr` in order,
each mapped to a (possibly empty) list in which every entry is a substring
of the input beginning with that protocol's `proto://` prefix. -/
theorem C10_extract_links_shape (text : String) :
    (extract_links text).map Prod.fst = protocols ∧
    (∀ m ∈ getProto (extract_links text) "vmess",
      pyStartsWith "vmess://" m = true ∧ m.data <:+: text.data) ∧
    (∀ m ∈ getProto (extract_links text) "vless",
      pyStartsWith "vless://" m = true ∧ m.data <:+: text.data) ∧
    (∀ m ∈ getProto (extract_links text) "ss",
      pyStartsWith "ss://" m = true ∧ m.data <:+: text.data) ∧
    (∀ m ∈ getProto (extract_links text) "trojan",
      pyStartsWith "trojan://" m = true ∧ m.data <:+: text.data) ∧
    (∀ m ∈ getProto (extract_links text) "ssr",
      pyStartsWith "ssr://" m = true ∧ m.data <:+: text.data) := by
  refine ⟨rfl, ?_, ?_, ?_, ?_, ?_⟩
  · -- vmess: validation itself checks the exact prefix
    intro m hm
    rw [show getProto (extract_links text) "vmess" =
        ((findall vmessMatchLen text.data).map String.mk).filter (keepMatch "vmess")
      from rfl, List.mem_filter] at hm
    obtain ⟨hmem, hkeep⟩ := hm
    obtain ⟨mc, hmc, rfl⟩ := List.mem_map.mp hmem
    rw [keepMatch_vmess, Bool.and_eq_true] at hkeep
    exact ⟨validate_vmess_link_starts hkeep.1, findall_infix hmc⟩
  · -- vless: case-insensitive match plus the case-sensitive prefix check
    intro m hm
    rw [show getProto (extract_links text) "vless" =
        ((findall vlessMatchLen text.data).map String.mk).filter (keepMatch "vless")
      from rfl, List.mem_filter] at hm
    obtain ⟨hmem, hkeep⟩ := hm
    obtain ⟨mc, hmc, rfl⟩ := List.mem_map.mp hmem
    rw [keepMatch_vless] at hkeep
    obtain ⟨s, n, hs, hml, rfl⟩ := findall_mem hmc
    obtain ⟨hci, h8⟩ := vlessMatchLen_ci hml
    have hcim : ciStartsWith "vless://".data (s.take n) = true :=
      ciStartsWith_take hci (by simpa using h8)
    exact ⟨exact_prefix_of_ci_vless hcim hkeep, findall_infix hmc⟩
  · -- ss: validation itself checks the exact prefix
    intro m hm
    rw [show getProto (extract_links text) "ss" =
        ((findall ssMatchLen text.data).map String.mk).filter (keepMatch "ss")
      from rfl, List.mem_filter] at hm
    obtain ⟨hmem, hkeep⟩ := hm
    obtain ⟨mc, hmc, rfl⟩ := List.mem_map.mp hmem
    rw [keepMatch_ss, Bool.and_eq_true] at hkeep
    exact ⟨validate_ss_link_starts hkeep.1, findall_infix hmc⟩
  · -- trojan
    intro m hm
    rw [show getProto (extract_links text) "trojan" =
        ((findall trojanMatchLen text.data).map String.mk).filter (keepMatch "trojan")
      from rfl, List.mem_filter] at hm
    obtain ⟨hmem, hkeep⟩ := hm
    obtain ⟨mc, hmc, rfl⟩ := List.mem_map.mp hmem
    rw [keepMatch_trojan] at hkeep
    obtain ⟨s, n, hs, hml, rfl⟩ := findall_mem hmc
    obtain ⟨hci, h9⟩ := trojanMatchLen_ci hml
    have hcim : ciStartsWith "trojan://".data (s.take n) = true :=
      ciStartsWith_take hci (by simpa using h9)
    exact ⟨exact_prefix_of_ci_trojan hcim hkeep, findall_infix hmc⟩
  · -- ssr
    intro m hm
    rw [show getProto (extract_links text) "ssr" =
        ((findall ssrMatchLen text.data).map String.mk).filter (keepMatch "ssr")
      from rfl, List.mem_filter] at hm
    obtain ⟨hmem, hkeep⟩ := hm
    obtain ⟨mc, hmc, rfl⟩ := List.mem_map.mp hmem
    rw [keepMatch_ssr] at hkeep
    obtain ⟨s, n, hs, hml, rfl⟩ := findall_mem hmc
    obtain ⟨hci, h18, _, _⟩ := ssrMatchLen_shape hml
    have hcim : ciStartsWith "ssr://".data (s.take n) = true :=
      ciStartsWith_take hci (by simp; omega)
    exact ⟨exact_prefix_of_ci_ssr hcim hkeep, findall_infix hmc⟩

/-! ### Claim C6 — inclusion of vmess candidates -/

/-- The inclusion condition exactly as claim C6 words it: the candidate's
body after the 8-character prefix decodes as base64 to UTF-8 JSON
containing non-empty (truthy) `add`, `port`, `id` and `ps` fields, with
`port` parseable as an integer in [1, 65535]. -/
def vmessClaimValid (m : String) : Bool :=
  match b64decode (m.data.drop 8) with
  | none => false
  | some bytes =>
    match utf8Decode bytes with
    | none => false
    | some dec =>
      match jsonLoads dec with
      | none => false
      | some config => vmessFieldsOk config

/-- On lowercase-prefixed candidates with a body of at least four
characters, the code's validation agrees with the claim's decode condition:
the extra `is_valid_base64` pre-check is implied by a successful strict
decode (`is_valid_of_decode`). -/
theorem validate_vmess_eq_claim {m : String}
    (hpre : pyStartsWith "vmess://" m = true)
    (hlen : 4 ≤ (m.data.drop 8).length) :
    validate_vmess_link m = vmessClaimValid m := by
  unfold validate_vmess_link vmessClaimValid
  rcases hdec : b64decode (m.data.drop 8) with _ | bs
  · cases hiv : is_valid_base64 (m.data.drop 8) <;> simp [hpre, hiv, hdec]
  · have hiv := is_valid_of_decode hdec hlen
    simp [hpre, hiv, hdec]

theorem validate_link_of_vmess_shape {m : String}
    (hpre : pyStartsWith "vmess://" m = true)
    (hlen : 16 ≤ m.data.length)
    (hall : (m.data.drop 8).all isB64ExtCh = true) :
    validate_link m = true := by
  obtain ⟨t, ht⟩ := (startsWithL_iff _ _).mp hpre
  have hbs : beforeScheme m.data = "vmess".data := by
    rw [← ht]
    rfl
  have ht2 : m.data.drop 8 = t := by
    rw [← ht]
    have h8 : ("vmess://".data).length = 8 := rfl
    rw [← h8]
    exact List.drop_left _ _
  have hnoc : ∀ c ∈ m.data, c ≠ '\n' ∧ c ≠ '\r' ∧ c ≠ '\t' := by
    intro c hc
    rw [← ht] at hc
    rcases List.mem_append.mp hc with hp | hp
    · have hp2 : c ∈ ['v', 'm', 'e', 's', 's', ':', '/', '/'] := hp
      fin_cases hp2 <;> exact ⟨by decide, by decide, by decide⟩
    · have hb := List.all_eq_true.mp hall c (by rw [ht2]; exact hp)
      refine ⟨fun hc2 => ?_, fun hc2 => ?_, fun hc2 => ?_⟩ <;>
        (subst hc2; exact absurd hb (by decide))
  have hdisj : (pyStartsWith "vmess://" m || pyStartsWith "vless://" m ||
      pyStartsWith "ss://" m || pyStartsWith "trojan://" m ||
      pyStartsWith "ssr://" m) = true := by
    simp [hpre]
  unfold validate_link
  rw [hdisj, if_pos rfl]
  rw [if_neg (by rw [hbs]; have h5 : ("vmess".data).length = 5 := rfl; omega)]
  rw [if_neg ?hnc]
  case hnc =>
    intro hcon
    simp only [Bool.or_eq_true] at hcon
    rcases hcon with (h | h) | h
    · exact (hnoc '\n' (by simpa using h)).1 rfl
    · exact (hnoc '\r' (by simpa using h)).2.1 rfl
    · exact (hnoc '\t' (by simpa using h)).2.2 rfl

/-- Counterexample to C6 as frozen: with `re.IGNORECASE` the pattern matches
an uppercase `VMESS://` candidate whose body satisfies the claim's decode
condition, yet `validate_vmess_link`'s case-sensitive `startswith('vmess://')`
rejects it, so the candidate is absent from the output: the claimed
equivalence fails at this input. -/
theorem C6_counterexample :
    "VMESS://eyJhZGQiOiJleGFtcGxlLmNvbSIsInBvcnQiOiI0NDMiLCJpZCI6ImFiYyIsIm5ldCI6IndzIiwidHlwZSI6Im5vbmUiLCJwcyI6IngifQ=="
      ∈ (findall vmessMatchLen
        "VMESS://eyJhZGQiOiJleGFtcGxlLmNvbSIsInBvcnQiOiI0NDMiLCJpZCI6ImFiYyIsIm5ldCI6IndzIiwidHlwZSI6Im5vbmUiLCJwcyI6IngifQ==".data).map
        String.mk ∧
    vmessClaimValid
      "VMESS://eyJhZGQiOiJleGFtcGxlLmNvbSIsInBvcnQiOiI0NDMiLCJpZCI6ImFiYyIsIm5ldCI6IndzIiwidHlwZSI6Im5vbmUiLCJwcyI6IngifQ==" = true ∧
    "VMESS://eyJhZGQiOiJleGFtcGxlLmNvbSIsInBvcnQiOiI0NDMiLCJpZCI6ImFiYyIsIm5ldCI6IndzIiwidHlwZSI6Im5vbmUiLCJwcyI6IngifQ=="
      ∉ getProto (extract_links
        "VMESS://eyJhZGQiOiJleGFtcGxlLmNvbSIsInBvcnQiOiI0NDMiLCJpZCI6ImFiYyIsIm5ldCI6IndzIiwidHlwZSI6Im5vbmUiLCJwcyI6IngifQ==")
        "vmess" := by
  refine ⟨?_, rfl, ?_⟩
  · rw [show (findall vmessMatchLen
        "VMESS://eyJhZGQiOiJleGFtcGxlLmNvbSIsInBvcnQiOiI0NDMiLCJpZCI6ImFiYyIsIm5ldCI6IndzIiwidHlwZSI6Im5vbmUiLCJwcyI6IngifQ==".data).map
        String.mk =
      ["VMESS://eyJhZGQiOiJleGFtcGxlLmNvbSIsInBvcnQiOiI0NDMiLCJpZCI6ImFiYyIsIm5ldCI6IndzIiwidHlwZSI6Im5vbmUiLCJwcyI6IngifQ=="]
      from rfl]
    exact List.mem_singleton.mpr rfl
  · rw [show getProto (extract_links
        "VMESS://eyJhZGQiOiJleGFtcGxlLmNvbSIsInBvcnQiOiI0NDMiLCJpZCI6ImFiYyIsIm5ldCI6IndzIiwidHlwZSI6Im5vbmUiLCJwcyI6IngifQ==")
        "vmess" = [] from rfl]
    exact List.not_mem_nil _

/-- C6 (amended): for every text, a pattern-matched candidate whose matched
protocol prefix is exactly the lowercase `vmess://` is included in the
extraction output if and only if its body (after the prefix) decodes as
base64 to UTF-8 JSON containing non-empty `add`, `port`, `id` and `ps`
fields with `port` parseable as an integer in [1, 65535]; failing
candidates are silently dropped and no exception is raised (all functions
in the chain are total).  Candidates matched with any other capitalisation
of the prefix are always dropped (`C6_counterexample`). -/
theorem C6_vmess_inclusion_iff (text m : String)
    (hm : m ∈ (findall vmessMatchLen text.data).map String.mk)
    (hpre : pyStartsWith "vmess://" m = true) :
    m ∈ getProto (extract_links text) "vmess" ↔ vmessClaimValid m = true := by
  have hget : getProto (extract_links text) "vmess" =
      ((findall vmessMatchLen text.data).map String.mk).filter (keepMatch "vmess") :=
    rfl
  obtain ⟨mc, hmc, hmeq⟩ := List.mem_map.mp hm
  obtain ⟨s, n, hs, hml, hmc_take⟩ := findall_mem hmc
  obtain ⟨k, hn, hk8, hkle, hci, hall⟩ := vmessMatchLen_shape hml
  have hmdata : m.data = s.take n := by
    rw [← hmeq, hmc_take]
  have hlenm : m.data.length = n := by
    rw [hmdata]
    simp only [List.length_take]
    omega
  have hbody : m.data.drop 8 = (s.drop 8).take k := by
    rw [hmdata, hn, List.drop_take]
    congr 1
    omega
  have hlen4 : 4 ≤ (m.data.drop 8).length := by
    rw [hbody]
    simp only [List.length_take, List.length_drop]
    omega
  constructor
  · intro hin
    rw [hget, List.mem_filter] at hin
    have hkeep := hin.2
    rw [keepMatch_vmess, Bool.and_eq_true] at hkeep
    rw [← validate_vmess_eq_claim hpre hlen4]
    exact hkeep.1
  · intro hclaim
    rw [hget, List.mem_filter]
    refine ⟨hm, ?_⟩
    rw [keepMatch_vmess, Bool.and_eq_true]
    have hv : validate_vmess_link m = true := by
      rw [validate_vmess_eq_claim hpre hlen4]
      exact hclaim
    refine ⟨hv, validate_link_of_vmess_shape hpre ?_ ?_⟩
    · omega
    · rw [hbody]
      exact hall


set_option maxRecDepth 100000 in
theorem C6_vmess_inclusion_iff_witness :
    ("vmess://eyJhZGQiOiJleGFtcGxlLmNvbSIsInBvcnQiOiI0NDMiLCJpZCI6ImFiYyIsIm5ldCI6IndzIiwidHlwZSI6Im5vbmUiLCJwcyI6IngifQ=="
      ∈ getProto (extract_links "vmess://eyJhZGQiOiJleGFtcGxlLmNvbSIsInBvcnQiOiI0NDMiLCJpZCI6ImFiYyIsIm5ldCI6IndzIiwidHlwZSI6Im5vbmUiLCJwcyI6IngifQ==") "vmess" ↔
      vmessClaimValid "vmess://eyJhZGQiOiJleGFtcGxlLmNvbSIsInBvcnQiOiI0NDMiLCJpZCI6ImFiYyIsIm5ldCI6IndzIiwidHlwZSI6Im5vbmUiLCJwcyI6IngifQ==" = true) :=
  C6_vmess_inclusion_iff "vmess://eyJhZGQiOiJleGFtcGxlLmNvbSIsInBvcnQiOiI0NDMiLCJpZCI6ImFiYyIsIm5ldCI6IndzIiwidHlwZSI6Im5vbmUiLCJwcyI6IngifQ==" "vmess://eyJhZGQiOiJleGFtcGxlLmNvbSIsInBvcnQiOiI0NDMiLCJpZCI6ImFiYyIsIm5ldCI6IndzIiwidHlwZSI6Im5vbmUiLCJwcyI6IngifQ=="
    (by
      rw [show (findall vmessMatchLen "vmess://eyJhZGQiOiJleGFtcGxlLmNvbSIsInBvcnQiOiI0NDMiLCJpZCI6ImFiYyIsIm5ldCI6IndzIiwidHlwZSI6Im5vbmUiLCJwcyI6IngifQ==".data).map String.mk = ["vmess://eyJhZGQiOiJleGFtcGxlLmNvbSIsInBvcnQiOiI0NDMiLCJpZCI6ImFiYyIsIm5ldCI6IndzIiwidHlwZSI6Im5vbmUiLCJwcyI6IngifQ=="] from rfl]
      exact List.mem_singleton.mpr rfl)
    rfl

/-! ### Claim C7 — inclusion of ss candidates -/

/-- The inclusion condition exactly as claim C7 words it: the candidate's
body after the 5-character prefix, split on the first `@`, has a left part
that strict-decodes as base64 to a UTF-8 string containing a `:` and a
right part (any `#`-fragment stripped) containing a `host:port` with a
non-empty host and a numeric port in [1, 65535]. -/
def ssClaimValid (m : String) : Bool :=
  if !((m.data.drop 5).contains '@') then false
  else
    if !((beforeFirst '#' ((afterFirst '@' (m.data.drop 5)).getD [])).contains ':')
      then false
    else
      if ((beforeLast ':' (beforeFirst '#'
            ((afterFirst '@' (m.data.drop 5)).getD []))).getD []).isEmpty ||
          (afterLast ':' (beforeFirst '#'
            ((afterFirst '@' (m.data.drop 5)).getD []))).isEmpty then false
      else
        match pyIntOfChars (afterLast ':' (beforeFirst '#'
            ((afterFirst '@' (m.data.drop 5)).getD []))) with
        | none => false
        | some pn =>
          if !(decide (1 ≤ pn ∧ pn ≤ 65535)) then false
          else
            match b64decode (beforeFirst '@' (m.data.drop 5)) with
            | none => false
            | some bytes =>
              match utf8Decode bytes with
              | none => false
              | some dec => dec.contains ':'

theorem ssClaimValid_decode {m : String} (h : ssClaimValid m = true) :
    ∃ bs, b64decode (beforeFirst '@' (m.data.drop 5)) = some bs := by
  unfold ssClaimValid at h
  split at h
  · simp at h
  · split at h
    · simp at h
    · split at h
      · simp at h
      · rcases hpi : pyIntOfChars (afterLast ':' (beforeFirst '#'
            ((afterFirst '@' (m.data.drop 5)).getD []))) with _ | pn
        · rw [hpi] at h
          simp at h
        · rw [hpi] at h
          split at h
          · simp at h
          · rcases hdec : b64decode (beforeFirst '@' (m.data.drop 5)) with _ | bs
            · rw [hdec] at h
              simp at h
            · exact ⟨bs, rfl⟩

/-- On `ss://`-prefixed candidates whose credential part has at least four
characters, the code's validation agrees with the claim's condition: the
extra `is_valid_base64` pre-check is implied by a successful strict decode
of the credentials (`is_valid_of_decode`). -/
theorem validate_ss_eq_claim {m : String}
    (hpre : pyStartsWith "ss://" m = true)
    (hlen : 4 ≤ (beforeFirst '@' (m.data.drop 5)).length) :
    validate_ss_link m = ssClaimValid m := by
  cases hiv : is_valid_base64 (beforeFirst '@' (m.data.drop 5))
  · have hside : validate_ss_link m = false := by
      simp [validate_ss_link, hpre, hiv]
    rw [hside]
    cases hcv : ssClaimValid m
    · rfl
    · obtain ⟨bs, hdec⟩ := ssClaimValid_decode hcv
      have := is_valid_of_decode hdec hlen
      rw [this] at hiv
      exact (Bool.true_eq_false ▸ hiv).elim
  · simp [validate_ss_link, ssClaimValid, hpre, hiv]

theorem isB64ExtCh_no_ctl {c : Char} (h : isB64ExtCh c = true) :
    c ≠ '\n' ∧ c ≠ '\r' ∧ c ≠ '\t' := by
  refine ⟨fun hc => ?_, fun hc => ?_, fun hc => ?_⟩ <;>
    (subst hc; exact absurd h (by decide))

theorem isServerCh_no_ctl {c : Char} (h : isServerCh c = true) :
    c ≠ '\n' ∧ c ≠ '\r' ∧ c ≠ '\t' := by
  refine ⟨fun hc => ?_, fun hc => ?_, fun hc => ?_⟩ <;>
    (subst hc; exact absurd h (by decide))

theorem nonSpace_no_ctl {c : Char} (h : (!(pySpace c)) = true) :
    c ≠ '\n' ∧ c ≠ '\r' ∧ c ≠ '\t' := by
  refine ⟨fun hc => ?_, fun hc => ?_, fun hc => ?_⟩ <;>
    (subst hc; exact absurd h (by decide))

theorem takeWhile_append_stop {p : Char → Bool} {pre post : List Char}
    (hpre : ∀ a ∈ pre, p a = true) {c : Char} (hc : p c = false) :
    (pre ++ c :: post).takeWhile p = pre := by
  induction pre with
  | nil => simp [List.takeWhile_cons, hc]
  | cons a t ih =>
    have ha := hpre a (by simp)
    simp only [List.cons_append, List.takeWhile_cons, ha, if_true]
    rw [ih (fun x hx => hpre x (by simp [hx]))]

theorem take_append_exact {l1 l2 : List Char} {k : Nat} :
    (l1 ++ l2).take (l1.length + k) = l1 ++ l2.take k := by
  induction l1 with
  | nil => simp
  | cons a t ih =>
    simp only [List.cons_append, List.length_cons]
    rw [show t.length + 1 + k = t.length + k + 1 from by omega,
      List.take_succ_cons, ih]

theorem take_cons_exact {c : Char} {l : List Char} {k : Nat} :
    (c :: l).take (1 + k) = c :: l.take k := by
  rw [show 1 + k = k + 1 from by omega, List.take_succ_cons]

theorem beforeFirst_at_append {pre post : List Char}
    (h : ∀ a ∈ pre, isB64ExtCh a = true) :
    beforeFirst '@' (pre ++ '@' :: post) = pre := by
  unfold beforeFirst
  exact takeWhile_append_stop
    (fun a ha => by
      have hb := h a ha
      simp only [bne_iff_ne, ne_eq]
      intro hceq
      subst hceq
      exact absurd hb (by decide))
    (by decide)

/-- Shape of an ss pattern match: the case-insensitive prefix, length
bounds, a credential run of at least 8 base64-class characters before the
first `@` of the body, and no control characters anywhere in the body. -/
theorem ssMatchLen_shape {s : List Char} {n : Nat} (h : ssMatchLen s = some n) :
    ciStartsWith "ss://".data s = true ∧ 14 ≤ n ∧ n ≤ s.length ∧
      8 ≤ (beforeFirst '@' ((s.take n).drop 5)).length ∧
      ∀ c ∈ (s.take n).drop 5, c ≠ '\n' ∧ c ≠ '\r' ∧ c ≠ '\t' := by
  obtain ⟨run, hrun⟩ : ∃ r, (s.drop 5).takeWhile isB64ExtCh = r := ⟨_, rfl⟩
  unfold ssMatchLen at h
  rw [hrun] at h
  split at h
  · rename_i hci
    have hslen5 : 5 ≤ s.length := by
      simpa using ciStartsWith_length_le hci
    have htw : (s.drop 5).take run.length = run := by
      rw [← hrun]
      exact (List.prefix_iff_eq_take.mp (List.takeWhile_prefix _)).symm
    have hrun_le : run.length ≤ (s.drop 5).length := by
      rw [← hrun]
      exact takeWhile_length_le _ _
    have hrun_all : ∀ c ∈ run, isB64ExtCh c = true := by
      rw [← hrun]
      exact fun c hc => List.mem_takeWhile_imp hc
    have hdl : (s.drop 5).length = s.length - 5 := by simp
    split at h
    · rename_i hr8
      split at h
      · rename_i after heq
        have hsplit : s.drop 5 = run ++ '@' :: after := by
          conv_lhs => rw [← List.take_append_drop run.length (s.drop 5)]
          rw [htw, heq]
        have hlen_body : (s.drop 5).length = run.length + 1 + after.length := by
          conv_lhs => rw [hsplit]
          simp only [List.length_append, List.length_cons]
          omega
        obtain ⟨srv, hsrv⟩ : ∃ r, after.takeWhile isServerCh = r := ⟨_, rfl⟩
        rw [hsrv] at h
        have htwA : after.take srv.length = srv := by
          rw [← hsrv]
          exact (List.prefix_iff_eq_take.mp (List.takeWhile_prefix _)).symm
        have hsrv_le : srv.length ≤ after.length := by
          rw [← hsrv]
          exact takeWhile_length_le _ _
        have hsrv_all : ∀ c ∈ srv, isServerCh c = true := by
          rw [← hsrv]
          exact fun c hc => List.mem_takeWhile_imp hc
        split at h
        · rename_i hv1
          split at h
          · rename_i frag heq2
            have hsplitA : after = srv ++ '#' :: frag := by
              conv_lhs => rw [← List.take_append_drop srv.length after]
              rw [htwA, heq2]
            split at h
            · rename_i j hlz
              cases h
              obtain ⟨hjle, hjall⟩ := lazyStarLen_bounds hlz
              have hlenA : after.length = srv.length + 1 + frag.length := by
                conv_lhs => rw [hsplitA]
                simp only [List.length_append, List.length_cons]
                omega
              have hidx : 5 + run.length + 1 + srv.length + 1 + j - 5
                  = run.length + (1 + (srv.length + (1 + j))) := by omega
              have hbody : (s.take (5 + run.length + 1 + srv.length + 1 + j)).drop 5
                  = run ++ '@' :: (srv ++ '#' :: frag.take j) := by
                rw [List.drop_take, hidx]
                conv_lhs => rw [hsplit, hsplitA]
                rw [take_append_exact, take_cons_exact, take_append_exact,
                  take_cons_exact]
              refine ⟨hci, by omega, by omega, ?_, ?_⟩
              · rw [hbody, beforeFirst_at_append hrun_all]
                omega
              · intro c hc
                rw [hbody] at hc
                simp only [List.mem_append, List.mem_cons] at hc
                rcases hc with hc | hc | hc | hc | hc
                · exact isB64ExtCh_no_ctl (hrun_all c hc)
                · subst hc
                  exact ⟨by decide, by decide, by decide⟩
                · exact isServerCh_no_ctl (hsrv_all c hc)
                · subst hc
                  exact ⟨by decide, by decide, by decide⟩
                · exact nonSpace_no_ctl (List.all_eq_true.mp hjall c hc)
            · simp at h
          · split at h
            · rename_i hla
              cases h
              have hidx2 : 5 + run.length + 1 + srv.length - 5
                  = run.length + (1 + srv.length) := by omega
              have hbody2 : (s.take (5 + run.length + 1 + srv.length)).drop 5
                  = run ++ '@' :: srv := by
                rw [List.drop_take, hidx2]
                conv_lhs => rw [hsplit]
                rw [take_append_exact, take_cons_exact, htwA]
              refine ⟨hci, by omega, by omega, ?_, ?_⟩
              · rw [hbody2, beforeFirst_at_append hrun_all]
                omega
              · intro c hc
                rw [hbody2] at hc
                simp only [List.mem_append, List.mem_cons] at hc
                rcases hc with hc | hc | hc
                · exact isB64ExtCh_no_ctl (hrun_all c hc)
                · subst hc
                  exact ⟨by decide, by decide, by decide⟩
                · exact isServerCh_no_ctl (hsrv_all c hc)
            · simp at h
        · simp at h
      · simp at h
    · simp at h
  · simp at h

theorem validate_link_of_ss_shape {m : String}
    (hpre : pyStartsWith "ss://" m = true)
    (hlen : 13 ≤ m.data.length)
    (hnoc5 : ∀ c ∈ m.data.drop 5, c ≠ '\n' ∧ c ≠ '\r' ∧ c ≠ '\t') :
    validate_link m = true := by
  obtain ⟨t, ht⟩ := (startsWithL_iff _ _).mp hpre
  have hbs : beforeScheme m.data = "ss".data := by
    rw [← ht]
    rfl
  have ht2 : m.data.drop 5 = t := by
    rw [← ht]
    have h5 : ("ss://".data).length = 5 := rfl
    rw [← h5]
    exact List.drop_left _ _
  have hnoc : ∀ c ∈ m.data, c ≠ '\n' ∧ c ≠ '\r' ∧ c ≠ '\t' := by
    intro c hc
    rw [← ht] at hc
    rcases List.mem_append.mp hc with hp | hp
    · have hp2 : c ∈ ['s', 's', ':', '/', '/'] := hp
      fin_cases hp2 <;> exact ⟨by decide, by decide, by decide⟩
    · exact hnoc5 c (by rw [ht2]; exact hp)
  have hdisj : (pyStartsWith "vmess://" m || pyStartsWith "vless://" m ||
      pyStartsWith "ss://" m || pyStartsWith "trojan://" m ||
      pyStartsWith "ssr://" m) = true := by
    simp [hpre]
  unfold validate_link
  rw [hdisj, if_pos rfl]
  rw [if_neg (by rw [hbs]; have h2 : ("ss".data).length = 2 := rfl; omega)]
  rw [if_neg ?hnc]
  case hnc =>
    intro hcon
    simp only [Bool.or_eq_true] at hcon
    rcases hcon with (h | h) | h
    · exact (hnoc '\n' (by simpa using h)).1 rfl
    · exact (hnoc '\r' (by simpa using h)).2.1 rfl
    · exact (hnoc '\t' (by simpa using h)).2.2 rfl

/-- Counterexample to C7 as frozen: with `re.IGNORECASE` the pattern matches
an uppercase `SS://` candidate whose body satisfies the claim's credential
and server checks, yet `validate_ss_link`'s case-sensitive
`startswith('ss://')` rejects it, so the candidate is absent from the
output: the claimed equivalence fails at this input. -/
theorem C7_counterexample :
    "SS://YWVzLTI1Ni1nY206cGFzcw==@example.com:8388"
      ∈ (findall ssMatchLen
        "SS://YWVzLTI1Ni1nY206cGFzcw==@example.com:8388".data).map String.mk ∧
    ssClaimValid "SS://YWVzLTI1Ni1nY206cGFzcw==@example.com:8388" = true ∧
    "SS://YWVzLTI1Ni1nY206cGFzcw==@example.com:8388"
      ∉ getProto (extract_links "SS://YWVzLTI1Ni1nY206cGFzcw==@example.com:8388")
        "ss" := by
  refine ⟨?_, rfl, ?_⟩
  · rw [show (findall ssMatchLen
        "SS://YWVzLTI1Ni1nY206cGFzcw==@example.com:8388".data).map String.mk =
      ["SS://YWVzLTI1Ni1nY206cGFzcw==@example.com:8388"] from rfl]
    exact List.mem_singleton.mpr rfl
  · rw [show getProto
        (extract_links "SS://YWVzLTI1Ni1nY206cGFzcw==@example.com:8388") "ss"
        = [] from rfl]
    exact List.not_mem_nil _

/-- C7 (amended): for every text, a pattern-matched candidate whose matched
protocol prefix is exactly the lowercase `ss://` is included in the
extraction output if and only if its body, split on the first `@`, has a
left part that strict-decodes as base64 to a UTF-8 string containing `:`
and a right part (fragment stripped) containing a `host:port` with
non-empty host and numeric port in [1, 65535]; failing candidates are
silently dropped and no exception is raised.  Candidates matched with any
other capitalisation of the prefix are always dropped
(`C7_counterexample`). -/
theorem C7_ss_inclusion_iff (text m : String)
    (hm : m ∈ (findall ssMatchLen text.data).map String.mk)
    (hpre : pyStartsWith "ss://" m = true) :
    m ∈ getProto (extract_links text) "ss" ↔ ssClaimValid m = true := by
  have hget : getProto (extract_links text) "ss" =
      ((findall ssMatchLen text.data).map String.mk).filter (keepMatch "ss") :=
    rfl
  obtain ⟨mc, hmc, hmeq⟩ := List.mem_map.mp hm
  obtain ⟨s, n, hs, hml, hmc_take⟩ := findall_mem hmc
  obtain ⟨hci, h14, hns, hcred, hnoc⟩ := ssMatchLen_shape hml
  have hmdata : m.data = s.take n := by
    rw [← hmeq, hmc_take]
  have hlen4 : 4 ≤ (beforeFirst '@' (m.data.drop 5)).length := by
    rw [hmdata]
    omega
  have hlenm : 13 ≤ m.data.length := by
    rw [hmdata]
    simp only [List.length_take]
    omega
  have hvl : validate_link m = true :=
    validate_link_of_ss_shape hpre hlenm (by rw [hmdata]; exact hnoc)
  constructor
  · intro hin
    rw [hget, List.mem_filter] at hin
    have hkeep := hin.2
    rw [keepMatch_ss, Bool.and_eq_true] at hkeep
    rw [← validate_ss_eq_claim hpre hlen4]
    exact hkeep.1
  · intro hclaim
    rw [hget, List.mem_filter]
    refine ⟨hm, ?_⟩
    rw [keepMatch_ss, Bool.and_eq_true]
    refine ⟨?_, hvl⟩
    rw [validate_ss_eq_claim hpre hlen4]
    exact hclaim

set_option maxRecDepth 100000 in
theorem C7_ss_inclusion_iff_witness :
    ("ss://YWVzLTI1Ni1nY206cGFzcw==@example.com:8388"
      ∈ getProto (extract_links "ss://YWVzLTI1Ni1nY206cGFzcw==@example.com:8388")
        "ss" ↔
      ssClaimValid "ss://YWVzLTI1Ni1nY206cGFzcw==@example.com:8388" = true) :=
  C7_ss_inclusion_iff "ss://YWVzLTI1Ni1nY206cGFzcw==@example.com:8388"
    "ss://YWVzLTI1Ni1nY206cGFzcw==@example.com:8388"
    (by
      rw [show (findall ssMatchLen
          "ss://YWVzLTI1Ni1nY206cGFzcw==@example.com:8388".data).map String.mk =
        ["ss://YWVzLTI1Ni1nY206cGFzcw==@example.com:8388"] from rfl]
      exact List.mem_singleton.mpr rfl)
    rfl

/-! ### Claim C8 — `_parse_number_with_suffix` (`scrapper.py`)

The parser multiplies a `float` by the suffix factor and truncates with
`int(...)`.  IEEE-754 binary64 arithmetic is modelled exactly over
rationals: a decimal literal is rounded to the nearest double
(ties-to-even), the product with the exactly-representable factor is
rounded once, and `int()` truncates.  The model covers the normal range of
binary64 (every count string a channel page can display); signs, exponent
notation and overflow to infinity do not occur in such strings and are
outside the model. -/

/-- Fuel-indexed floor of log2. -/
def log2F : Nat → Nat → Nat
  | 0, _ => 0
  | Nat.succ f, n => if n ≥ 2 then log2F f (n / 2) + 1 else 0

def myLog2 (n : Nat) : Nat := log2F n n

/-- Smallest `k` with `a·2^k ≥ b` (fuel-indexed; `a ≥ 1`). -/
def negExpSearch : Nat → Nat → Nat → Nat
  | 0, _, _ => 0
  | Nat.succ f, a, b => if a ≥ b then 0 else negExpSearch f (2 * a) b + 1

/-- The `e` with `2^e ≤ a/b < 2^(e+1)` for positive `a`, `b`. -/
def floorLog2 (a b : Nat) : Int :=
  if a ≥ b then (myLog2 (a / b) : Int) else -(negExpSearch b a b : Int)

/-- Round `a/b` to the nearest integer, ties to even. -/
def roundNearestEven (a b : Nat) : Nat :=
  if 2 * (a % b) < b then a / b
  else if 2 * (a % b) > b then a / b + 1
  else if (a / b) % 2 = 0 then a / b else a / b + 1

/-- The binary64 double nearest to the rational `a/b` (normal range), as a
mantissa/exponent pair `(m, e)` with value `m·2^e`. -/
def nearestDoubleRat (a b : Nat) : Nat × Int :=
  if a = 0 then (0, 0)
  else
    let E := floorLog2 a b
    let m := if 52 - E ≥ 0 then roundNearestEven (a * 2 ^ (52 - E).toNat) b
             else roundNearestEven a (b * 2 ^ (E - 52).toNat)
    if m = 2 ^ 53 then (2 ^ 52, E - 51) else (m, E - 52)

/-- Double times an exactly-representable natural factor, rounded once. -/
def doubleMulNat : Nat × Int → Nat → Nat × Int
  | (m, e), c =>
    if e ≥ 0 then nearestDoubleRat (m * c * 2 ^ e.toNat) 1
    else nearestDoubleRat (m * c) (2 ^ (-e).toNat)

/-- `int()` truncation of a non-negative double. -/
def doubleTruncToNat : Nat × Int → Nat
  | (m, e) => if e ≥ 0 then m * 2 ^ e.toNat else m / 2 ^ (-e).toNat

/-- Python `float(s)` for a non-negative decimal literal (digits with at
most one dot, not just a dot), as an exact rational `(numerator,
denominator)`; `none` models a raised `ValueError`. -/
def decimalToRat (l : List Char) : Option (Nat × Nat) :=
  if l.contains '.' then
    if (beforeFirst '.' l).all isDigitCh &&
        ((afterFirst '.' l).getD []).all isDigitCh &&
        !((beforeFirst '.' l).isEmpty && ((afterFirst '.' l).getD []).isEmpty) then
      some (digitsToNat (beforeFirst '.' l ++ (afterFirst '.' l).getD []),
        10 ^ ((afterFirst '.' l).getD []).length)
    else none
  else
    if !l.isEmpty && l.all isDigitCh then some (digitsToNat l, 1) else none

/-- `TelegramChannelScraper._parse_number_with_suffix`: strip spaces, branch
on a trailing `M`/`K`, scale a parsed `float` by `1e6`/`1000` in binary64
and truncate with `int`, and derive the granularity from the number of
decimal digits shown; `none` models a raised `ValueError`. -/
def parse_number_with_suffix (text : List Char) : Option (Int × Nat) :=
  match (text.filter (fun c => c != ' ')).getLast? with
  | some 'M' =>
    (decimalToRat (text.filter (fun c => c != ' ')).dropLast).map (fun ab =>
      ((doubleTruncToNat (doubleMulNat (nearestDoubleRat ab.1 ab.2) 1000000) : Int),
       if !((text.filter (fun c => c != ' ')).contains '.') then 10 ^ 6
       else 10 ^ (6 -
         ((afterFirst '.' (text.filter (fun c => c != ' ')).dropLast).getD []).length)))
  | some 'K' =>
    (decimalToRat (text.filter (fun c => c != ' ')).dropLast).map (fun ab =>
      ((doubleTruncToNat (doubleMulNat (nearestDoubleRat ab.1 ab.2) 1000) : Int),
       if !((text.filter (fun c => c != ' ')).contains '.') then 10 ^ 3
       else 10 ^ (3 -
         ((afterFirst '.' (text.filter (fun c => c != ' ')).dropLast).getD []).length)))
  | _ =>
    (pyIntOfChars (text.filter (fun c => c != ' '))).map (fun v => (v, 1))

/-- The value the claim prescribes: the displayed decimal number scaled
exactly by the suffix factor (stated from the claim's words, for comparison
with the code's float arithmetic). -/
def claimScaledValue (text : List Char) : Option Int :=
  match text.getLast? with
  | some 'M' => (decimalToRat text.dropLast).map (fun ab =>
      ((ab.1 * 1000000 / ab.2 : Nat) : Int))
  | some 'K' => (decimalToRat text.dropLast).map (fun ab =>
      ((ab.1 * 1000 / ab.2 : Nat) : Int))
  | _ => (decimalToRat text).map (fun ab => ((ab.1 / ab.2 : Nat) : Int))

/-- C8: the spec's three examples do hold, but the general sentence fails on
the code: at `"32.3K"` binary64 arithmetic yields
`int(float('32.3')*1000) = 32299`, not the displayed number scaled by the
suffix factor (`32300`), and the returned value is not even a multiple of
the granularity `100` the same call derives. -/
theorem C8_parse_number_float_truncation :
    parse_number_with_suffix "1.2K".data = some (1200, 100) ∧
    parse_number_with_suffix "5M".data = some (5000000, 1000000) ∧
    parse_number_with_suffix "930".data = some (930, 1) ∧
    parse_number_with_suffix "32.3K".data = some (32299, 100) ∧
    claimScaledValue "32.3K".data = some 32300 ∧
    ¬ (32299 % 100 = 0) := by
  exact ⟨rfl, rfl, rfl, rfl, rfl, by decide⟩

/-! ### Claim C3 — the retry loop of `Scraper._request` (`base.py`)

HTTP attempts are modelled by an environment `att : Nat → AttemptOutcome`
giving each attempt's outcome: a raised `requests` exception with its
`repr`, or a response together with the `responseOkCallback` verdict
(`(True, None)` when no callback is given).  The loop itself — the errors
list, the exponential back-off sleeps, the early return and the terminal
`ScraperException` — is translated from the source.  Logging, header and
proxy preparation do not affect the claim and are outside the model; the
exhaustion message uses the requested URL (`req.url` normalisation is the
identity for the URLs the crawler builds). -/

inductive AttemptOutcome where
  | exc (reprTxt : String)
  | resp (success : Bool) (msg : Option String)

/-- `if msg:` — truthiness of the callback message. -/
def msgTruthy : Option String → Bool
  | none => false
  | some s => s != ""

/-- Whether the attempt returns from `_request` (a successful, accepted
response). -/
def attemptReturns : AttemptOutcome → Bool
  | AttemptOutcome.exc _ => false
  | AttemptOutcome.resp success _ => success

/-- Result of a `_request` run: the raised exhaustion message or the index
of the attempt whose response is returned, the number of attempts issued,
the back-off sleeps in seconds, and the accumulated `errors` list. -/
structure RequestResult where
  outcome : Except String Nat
  attempts : Nat
  sleeps : List Nat
  errors : List String

/-- Decimal digits of a natural number (fuel-indexed). -/
def natDigitsF : Nat → Nat → List Char
  | 0, _ => []
  | Nat.succ f, n =>
    if n < 10 then [Char.ofNat (48 + n)]
    else natDigitsF f (n / 10) ++ [Char.ofNat (48 + n % 10)]

def natRepr (n : Nat) : String := String.mk (natDigitsF (n + 1) n)

/-- `f'{self._retries + 1} requests to {req.url} failed, giving up.'` -/
def scraperExceptionMsg (retries : Nat) (url : String) : String :=
  natRepr (retries + 1) ++ " requests to " ++ url ++ " failed, giving up."

/-- The `for attempt in range(self._retries + 1)` loop of `_request`,
structural on the remaining iteration count (`rem = retries + 1 - attempt`
at every call).  Each failing attempt appends its error text, sleeps
`2^attempt` seconds when `attempt < retries`, and continues; a successful
accepted attempt returns its response at once (appending the callback
message first when that message is truthy); an exhausted loop raises the
terminal `ScraperException`. -/
def requestLoop (retries : Nat) (att : Nat → AttemptOutcome) (url : String) :
    Nat → Nat → RequestResult
  | 0, _ =>
    ⟨Except.error (scraperExceptionMsg retries url), 0, [], []⟩
  | Nat.succ rem, attempt =>
    match att attempt, requestLoop retries att url rem (attempt + 1) with
    | AttemptOutcome.exc r, rest =>
      ⟨rest.outcome, rest.attempts + 1,
        (if attempt < retries then [2 ^ attempt] else []) ++ rest.sleeps,
        r :: rest.errors⟩
    | AttemptOutcome.resp true msg, _ =>
      ⟨Except.ok attempt, 1, [],
        if msgTruthy msg then [msg.getD ""] else []⟩
    | AttemptOutcome.resp false msg, rest =>
      ⟨rest.outcome, rest.attempts + 1,
        (if attempt < retries then [2 ^ attempt] else []) ++ rest.sleeps,
        (if msgTruthy msg then [msg.getD ""] else []) ++ rest.errors⟩

/-- `Scraper._request` with `retries` retries against the attempt
environment `att`. -/
def scraper_request (retries : Nat) (att : Nat → AttemptOutcome)
    (url : String) : RequestResult :=
  requestLoop retries att url (retries + 1) 0

theorem requestLoop_attempts_le (r : Nat) (att : Nat → AttemptOutcome)
    (url : String) :
    ∀ rem a, (requestLoop r att url rem a).attempts ≤ rem := by
  intro rem
  induction rem with
  | zero =>
    intro a
    exact Nat.le_refl 0
  | succ rem ih =>
    intro a
    rcases hatt : att a with s | ⟨success, msg⟩
    · simp only [requestLoop, hatt]
      have := ih (a + 1)
      omega
    · cases success
      · simp only [requestLoop, hatt]
        have := ih (a + 1)
        omega
      · simp only [requestLoop, hatt]
        omega

theorem requestLoop_all_fail (r : Nat) (att : Nat → AttemptOutcome)
    (url : String) (hf : ∀ i, i ≤ r → attemptReturns (att i) = false) :
    ∀ rem a, a + rem = r + 1 →
      (requestLoop r att url rem a).attempts = rem ∧
      (requestLoop r att url rem a).sleeps =
        (List.range' a (rem - 1)).map (fun i => 2 ^ i) ∧
      (requestLoop r att url rem a).outcome =
        Except.error (scraperExceptionMsg r url) := by
  intro rem
  induction rem with
  | zero =>
    intro a ha
    exact ⟨rfl, by simp [requestLoop], rfl⟩
  | succ rem ih =>
    intro a ha
    have hfa := hf a (by omega)
    have hrest := ih (a + 1) (by omega)
    rcases hatt : att a with s | ⟨success, msg⟩
    · simp only [requestLoop, hatt]
      refine ⟨by omega, ?_, hrest.2.2⟩
      rcases rem with _ | m
      · have hnl : ¬ a < r := by omega
        rw [if_neg hnl, List.nil_append, hrest.2.1]
        rfl
      · have hl : a < r := by omega
        rw [if_pos hl, hrest.2.1]
        rfl
    · have hsf : success = false := by
        rw [hatt] at hfa
        simpa [attemptReturns] using hfa
      subst hsf
      simp only [requestLoop, hatt]
      refine ⟨by omega, ?_, hrest.2.2⟩
      rcases rem with _ | m
      · have hnl : ¬ a < r := by omega
        rw [if_neg hnl, List.nil_append, hrest.2.1]
        rfl
      · have hl : a < r := by omega
        rw [if_pos hl, hrest.2.1]
        rfl

theorem requestLoop_success (r : Nat) (att : Nat → AttemptOutcome)
    (url : String) :
    ∀ rem a i, a + rem = r + 1 → a ≤ i → i ≤ r →
      attemptReturns (att i) = true →
      (∀ j, a ≤ j → j < i → attemptReturns (att j) = false) →
      (requestLoop r att url rem a).outcome = Except.ok i ∧
      (requestLoop r att url rem a).attempts = i - a + 1 ∧
      (requestLoop r att url rem a).sleeps =
        (List.range' a (i - a)).map (fun j => 2 ^ j) := by
  intro rem
  induction rem with
  | zero =>
    intro a i ha hai hir _ _
    omega
  | succ rem ih =>
    intro a i ha hai hir hret hfirst
    rcases Nat.eq_or_lt_of_le hai with heq | hlt
    · subst heq
      rcases hatt : att a with s | ⟨success, msg⟩
      · rw [hatt] at hret
        simp [attemptReturns] at hret
      · have hst : success = true := by
          rw [hatt] at hret
          simpa [attemptReturns] using hret
        subst hst
        simp only [requestLoop, hatt]
        simp [Nat.sub_self]
    · have hfa : attemptReturns (att a) = false := hfirst a (Nat.le_refl a) hlt
      have hrest := ih (a + 1) i (by omega) (by omega) hir hret
        (fun j hj1 hj2 => hfirst j (by omega) hj2)
      have hal : a < r := by omega
      rcases hatt : att a with s | ⟨success, msg⟩
      · simp only [requestLoop, hatt]
        refine ⟨hrest.1, by omega, ?_⟩
        simp only [if_pos hal, hrest.2.2]
        rw [show i - a = (i - (a + 1)) + 1 from by omega, List.range'_succ,
          List.map_cons]
        rfl
      · have hsf : success = false := by
          rw [hatt] at hfa
          simpa [attemptReturns] using hfa
        subst hsf
        simp only [requestLoop, hatt]
        refine ⟨hrest.1, by omega, ?_⟩
        simp only [if_pos hal, hrest.2.2]
        rw [show i - a = (i - (a + 1)) + 1 from by omega, List.range'_succ,
          List.map_cons]
        rfl

/-- Counterexample to C3 as frozen: the raised exhaustion error does not
carry the aggregated failure reasons.  Two all-failing runs whose attempts
fail for different reasons — so whose aggregated `errors` lists differ —
raise the very same error value, which is the fixed "N requests to URL
failed, giving up." message; the reasons reach only the log. -/
theorem C3_counterexample :
    (scraper_request 1 (fun _ => AttemptOutcome.exc "connection timeout")
        "https://t.me/s/chan").outcome =
      (scraper_request 1 (fun _ => AttemptOutcome.exc "dns failure")
        "https://t.me/s/chan").outcome ∧
    (scraper_request 1 (fun _ => AttemptOutcome.exc "connection timeout")
        "https://t.me/s/chan").errors ≠
      (scraper_request 1 (fun _ => AttemptOutcome.exc "dns failure")
        "https://t.me/s/chan").errors ∧
    (scraper_request 1 (fun _ => AttemptOutcome.exc "connection timeout")
        "https://t.me/s/chan").outcome =
      Except.error "2 requests to https://t.me/s/chan failed, giving up." := by
  refine ⟨rfl, ?_, rfl⟩
  intro h
  simp [scraper_request, requestLoop] at h

/-- C3 (amended): for every `retries = r`, `_request` issues at most `r + 1`
attempts; when every attempt fails or is rejected it issues exactly `r + 1`
attempts, sleeps exactly `r` times with delays `1, 2, 4, …, 2^(r-1)`
seconds (none after the final attempt), and then raises the terminal
exhaustion error, whose message names the attempt count and URL — the
aggregated failure reasons are kept in the `errors` list and logged, not
attached to the raised error (`C3_counterexample`); a successful accepted
attempt `i` returns at once after `i + 1` attempts and the `i` sleeps
`1, …, 2^(i-1)`. -/
theorem C3_retry_bound (r : Nat) (att : Nat → AttemptOutcome) (url : String) :
    (scraper_request r att url).attempts ≤ r + 1 ∧
    ((∀ i, i ≤ r → attemptReturns (att i) = false) →
      (scraper_request r att url).attempts = r + 1 ∧
      (scraper_request r att url).sleeps = (List.range r).map (fun i => 2 ^ i) ∧
      (scraper_request r att url).outcome =
        Except.error (scraperExceptionMsg r url)) ∧
    (∀ i, i ≤ r → attemptReturns (att i) = true →
      (∀ j, j < i → attemptReturns (att j) = false) →
      (scraper_request r att url).outcome = Except.ok i ∧
      (scraper_request r att url).attempts = i + 1 ∧
      (scraper_request r att url).sleeps =
        (List.range i).map (fun j => 2 ^ j)) := by
  refine ⟨requestLoop_attempts_le r att url (r + 1) 0, ?_, ?_⟩
  · intro hf
    have h := requestLoop_all_fail r att url hf (r + 1) 0 (by omega)
    refine ⟨h.1, ?_, h.2.2⟩
    show (requestLoop r att url (r + 1) 0).sleeps = (List.range r).map (fun i => 2 ^ i)
    rw [h.2.1, List.range_eq_range']
    rfl
  · intro i hir hret hfirst
    have h := requestLoop_success r att url (r + 1) 0 i (by omega)
      (Nat.zero_le i) hir hret (fun j _ hj => hfirst j hj)
    refine ⟨h.1, ?_, ?_⟩
    · show (requestLoop r att url (r + 1) 0).attempts = i + 1
      rw [h.2.1]
      omega
    · show (requestLoop r att url (r + 1) 0).sleeps =
        (List.range i).map (fun j => 2 ^ j)
      rw [h.2.2, List.range_eq_range']
      rfl

theorem C3_retry_bound_witness :
    ((scraper_request 1 (fun _ => AttemptOutcome.exc "boom")
        "https://t.me/s/chan").attempts = 1 + 1 ∧
     (scraper_request 1 (fun _ => AttemptOutcome.exc "boom")
        "https://t.me/s/chan").sleeps = (List.range 1).map (fun i => 2 ^ i) ∧
     (scraper_request 1 (fun _ => AttemptOutcome.exc "boom")
        "https://t.me/s/chan").outcome =
       Except.error (scraperExceptionMsg 1 "https://t.me/s/chan")) ∧
    ((scraper_request 3 (fun _ => AttemptOutcome.resp true none)
        "https://t.me/s/chan").outcome = Except.ok 0 ∧
     (scraper_request 3 (fun _ => AttemptOutcome.resp true none)
        "https://t.me/s/chan").attempts = 0 + 1 ∧
     (scraper_request 3 (fun _ => AttemptOutcome.resp true none)
        "https://t.me/s/chan").sleeps = (List.range 0).map (fun j => 2 ^ j)) :=
  ⟨(C3_retry_bound 1 (fun _ => AttemptOutcome.exc "boom")
      "https://t.me/s/chan").2.1 (fun i _ => rfl),
   (C3_retry_bound 3 (fun _ => AttemptOutcome.resp true none)
      "https://t.me/s/chan").2.2 0 (by omega) rfl
     (fun j hj => absurd hj (Nat.not_lt_zero j))⟩

/-! ### Claim C4 — pagination bound of `TelegramChannelScraper.get_items`

The page chain reached through the `tme_messages_more` cursor links is an
environment `env : Nat → TgPage`: page `i` carries the posts its markup
yields and whether it has a "load more" link (whose target is page `i+1`).
The generator is modelled with explicit fuel: a `false` completion flag
means the fuel ran out with the loop still running, so every property
proved for all fuel values covers arbitrarily long (even unending) cursor
chains.  A failing next-page fetch raises and so only truncates the yielded
sequence; it is subsumed by a chain whose last page has no more-link. -/

structure TgPage where
  posts : List Nat
  hasMore : Bool

def MAX_FETCH : Nat := 200

/-- The `while post_count < max_posts` loop of `get_items`: yield the
current page's posts until the limit is hit, stop when the limit is reached
or no "load more" link exists, else continue with the next page.  Returns
the yielded posts and whether the generator finished within the fuel. -/
def getItemsF (env : Nat → TgPage) (maxPosts : Nat) :
    Nat → Nat → Nat → List Nat × Bool
  | 0, _, _ => ([], false)
  | Nat.succ f, pg, cnt =>
    if maxPosts ≤ cnt then ([], true)
    else if maxPosts ≤ cnt + (env pg).posts.length then
      ((env pg).posts.take (maxPosts - cnt), true)
    else if (env pg).hasMore then
      ((env pg).posts ++
        (getItemsF env maxPosts f (pg + 1) (cnt + (env pg).posts.length)).1,
       (getItemsF env maxPosts f (pg + 1) (cnt + (env pg).posts.length)).2)
    else ((env pg).posts, true)

/-- `get_items`: nothing without a public post list (`'/s/' not in
response.url`), otherwise the pagination loop from count 0 with the
`MAX_FETCH` limit. -/
def get_items (hasPublic : Bool) (env : Nat → TgPage) (fuel : Nat) :
    List Nat × Bool :=
  if hasPublic then getItemsF env MAX_FETCH fuel 0 0 else ([], true)

theorem getItemsF_length_le (env : Nat → TgPage) (k : Nat) :
    ∀ fuel pg cnt, (getItemsF env k fuel pg cnt).1.length ≤ k - cnt := by
  intro fuel
  induction fuel with
  | zero =>
    intro pg cnt
    simp [getItemsF]
  | succ f ih =>
    intro pg cnt
    simp only [getItemsF]
    by_cases h1 : k ≤ cnt
    · rw [if_pos h1]
      simp
    · rw [if_neg h1]
      by_cases h2 : k ≤ cnt + (env pg).posts.length
      · rw [if_pos h2]
        simp only [List.length_take]
        omega
      · rw [if_neg h2]
        by_cases h3 : (env pg).hasMore = true
        · rw [if_pos h3]
          have hrec := ih (pg + 1) (cnt + (env pg).posts.length)
          simp only [List.length_append]
          omega
        · rw [if_neg h3]
          simp only []
          omega

theorem getItemsF_terminates (env : Nat → TgPage) (k : Nat)
    (henv : ∀ i, (env i).posts = [] → (env i).hasMore = false) :
    ∀ fuel pg cnt, k - cnt < fuel → (getItemsF env k fuel pg cnt).2 = true := by
  intro fuel
  induction fuel with
  | zero =>
    intro pg cnt h
    omega
  | succ f ih =>
    intro pg cnt h
    simp only [getItemsF]
    by_cases h1 : k ≤ cnt
    · rw [if_pos h1]
    · rw [if_neg h1]
      by_cases h2 : k ≤ cnt + (env pg).posts.length
      · rw [if_pos h2]
      · rw [if_neg h2]
        by_cases h3 : (env pg).hasMore = true
        · rw [if_pos h3]
          have hne : (env pg).posts.length ≠ 0 := by
            intro h0
            have hnil : (env pg).posts = [] := List.eq_nil_of_length_eq_zero h0
            rw [henv pg hnil] at h3
            exact Bool.noConfusion h3
          exact ih (pg + 1) (cnt + (env pg).posts.length) (by omega)
        · rw [if_neg h3]

/-- C4: pagination is bounded — for every page chain and limit `k`,
`get_items` yields at most `k - start` posts from any start count (hence at
most `k` overall) for every amount of fuel; with limit `0` it yields
nothing; the code's limit constant `MAX_FETCH` is `200`, so the generator
yields at most `200` posts regardless of how many pages and posts the
cursor chain offers; and whenever every page that has a "load more" link
also carries at least one post, the loop finishes within `k + 1`
iterations. -/
theorem C4_pagination_bounded (env : Nat → TgPage) (k : Nat) :
    (∀ fuel pg cnt, (getItemsF env k fuel pg cnt).1.length ≤ k - cnt) ∧
    (∀ fuel pg cnt, (getItemsF env 0 fuel pg cnt).1 = []) ∧
    (∀ hasPublic fuel, (get_items hasPublic env fuel).1.length ≤ MAX_FETCH) ∧
    MAX_FETCH = 200 ∧
    ((∀ i, (env i).posts = [] → (env i).hasMore = false) →
      ∀ fuel pg cnt, k - cnt < fuel →
        (getItemsF env k fuel pg cnt).2 = true) := by
  refine ⟨getItemsF_length_le env k, ?_, ?_, rfl, getItemsF_terminates env k⟩
  · intro fuel pg cnt
    have h := getItemsF_length_le env 0 fuel pg cnt
    have h0 : (getItemsF env 0 fuel pg cnt).1.length = 0 := by omega
    exact List.eq_nil_of_length_eq_zero h0
  · intro hasPublic fuel
    cases hasPublic
    · simp [get_items]
    · have h := getItemsF_length_le env MAX_FETCH fuel 0 0
      simpa [get_items] using h

theorem C4_pagination_bounded_witness :
    (getItemsF (fun _ => ⟨[0], true⟩) 3 10 0 0).1.length ≤ 3 - 0 ∧
    (getItemsF (fun _ => ⟨[0], true⟩) 0 10 0 0).1 = [] ∧
    (get_items true (fun _ => ⟨[0], true⟩) 300).1.length ≤ MAX_FETCH ∧
    MAX_FETCH = 200 ∧
    (getItemsF (fun _ => ⟨[0], true⟩) 3 4 0 0).2 = true :=
  ⟨(C4_pagination_bounded (fun _ => ⟨[0], true⟩) 3).1 10 0 0,
   (C4_pagination_bounded (fun _ => ⟨[0], true⟩) 3).2.1 10 0 0,
   (C4_pagination_bounded (fun _ => ⟨[0], true⟩) 3).2.2.1 true 300,
   (C4_pagination_bounded (fun _ => ⟨[0], true⟩) 3).2.2.2.1,
   (C4_pagination_bounded (fun _ => ⟨[0], true⟩) 3).2.2.2.2
     (fun i hi => absurd hi (by simp)) 4 0 0 (by omega)⟩

/-! ### Claim C5 — the orchestrator (`main.py`)

A per-source acquisition task (`scrape_telegram_channel`, and
`scrape_github_urls`, whose body has the same shape) is modelled by what
the claim depends on: either the list of its posts' contents, or an
exception raised anywhere inside the task body — `SourceRun.fails` — which
the task-boundary `except` converts into the empty per-protocol dict.
`asyncio.gather(..., return_exceptions=True)` then makes
`scrape_all_sources` a pure fold over the task results followed by one
`deduplicate_links` call; every function in the chain is total. -/

inductive SourceRun where
  | ok (posts : List String)
  | fails (errTxt : String)

/-- `for protocol in combined: combined[protocol].extend(r[protocol])`. -/
def combineInto (acc : Links) (r : Links) : Links :=
  acc.map (fun e => (e.1, e.2 ++ getProto r e.1))

/-- `UnifiedChannelScraper.scrape_telegram_channel`: extract links from
every post with truthy content and collect them per protocol; any exception
inside the task yields the empty dict. -/
def scrape_telegram_channel : SourceRun → Links
  | SourceRun.fails _ => emptyLinks
  | SourceRun.ok posts =>
    (posts.filter (fun c => c != "")).foldl
      (fun acc c => combineInto acc (extract_links c)) emptyLinks

/-- The combination loop of `scrape_all_sources` over the gathered task
results. -/
def combineAll (runs : List SourceRun) : Links :=
  runs.foldl (fun acc r => combineInto acc (scrape_telegram_channel r))
    emptyLinks

/-- `UnifiedChannelScraper.scrape_all_sources`: combine all task results,
then deduplicate once. -/
def scrape_all_sources (st : CheckerState) (runs : List SourceRun) : Links :=
  (deduplicate_links st (combineAll runs)).2.1

theorem getProto_emptyLinks (x : String) : getProto emptyLinks x = [] := by
  unfold getProto
  rcases hf : emptyLinks.find? (fun e => e.1 == x) with _ | e
  · rw [hf]
  · have hm := List.mem_of_find?_eq_some hf
    fin_cases hm <;> rw [hf]

theorem combineInto_empty (acc : Links) : combineInto acc emptyLinks = acc := by
  unfold combineInto
  have h : ∀ e : String × List String,
      (e.1, e.2 ++ getProto emptyLinks e.1) = e := by
    intro e
    rw [getProto_emptyLinks, List.append_nil]
  calc acc.map (fun e => (e.1, e.2 ++ getProto emptyLinks e.1))
      = acc.map id := List.map_congr_left (fun e _ => h e)
    _ = acc := List.map_id acc

theorem combineInto_keys (acc r : Links) :
    (combineInto acc r).map Prod.fst = acc.map Prod.fst := by
  unfold combineInto
  rw [List.map_map]
  exact List.map_congr_left (fun e _ => rfl)

theorem getProto_cons (e : String × List String) (rest : Links) (x : String) :
    getProto (e :: rest) x = if e.1 == x then e.2 else getProto rest x := by
  rcases h : (e.1 == x) with _ | _ <;> simp [List.find?, h, getProto]

theorem getProto_combineInto (acc r : Links) (p : String)
    (hk : p ∈ acc.map Prod.fst) :
    getProto (combineInto acc r) p = getProto acc p ++ getProto r p := by
  induction acc with
  | nil => simp at hk
  | cons e rest ih =>
    rw [show combineInto (e :: rest) r =
        (e.1, e.2 ++ getProto r e.1) :: combineInto rest r from rfl]
    rw [getProto_cons, getProto_cons]
    show (if e.1 == p then e.2 ++ getProto r e.1
        else getProto (combineInto rest r) p) =
      (if e.1 == p then e.2 else getProto rest p) ++ getProto r p
    by_cases hep : (e.1 == p) = true
    · rw [if_pos hep, if_pos hep]
      have hfst : e.1 = p := by simpa using hep
      rw [hfst]
    · have hk2 : p ∈ rest.map Prod.fst := by
        rcases List.mem_map.mp hk with ⟨q, hq, hfst⟩
        rcases List.mem_cons.mp hq with h | h
        · subst h
          exact absurd (by simp [hfst]) hep
        · exact List.mem_map.mpr ⟨q, h, hfst⟩
      rw [if_neg hep, if_neg hep]
      exact ih hk2

theorem getProto_foldl_combine {α : Type} (f : α → Links) (p : String) :
    ∀ (xs : List α) (acc : Links), p ∈ acc.map Prod.fst →
      getProto (xs.foldl (fun a x => combineInto a (f x)) acc) p =
        getProto acc p ++ (xs.map (fun x => getProto (f x) p)).flatten := by
  intro xs
  induction xs with
  | nil =>
    intro acc _
    simp
  | cons x rest ih =>
    intro acc hk
    rw [List.foldl_cons]
    have hk2 : p ∈ (combineInto acc (f x)).map Prod.fst := by
      rw [combineInto_keys]
      exact hk
    rw [ih _ hk2, getProto_combineInto _ _ _ hk]
    simp [List.append_assoc]

theorem emptyLinks_keys : emptyLinks.map Prod.fst = protocols := rfl

/-- C5: the orchestrator's run is a total function of the task results —
no exception escapes it; a task that raises contributes an empty
per-protocol result and removing it leaves the run over the sibling tasks
unchanged; the combined per-protocol collections are the concatenation of
the per-task collections and are passed through `deduplicate_links`
exactly once; and a successful task contributes, per protocol, exactly the
concatenation of `extract_links` over its truthy post contents. -/
theorem C5_orchestrator (st : CheckerState) (runs : List SourceRun)
    (p : String) (hp : p ∈ protocols) :
    (∀ msg runs1 runs2,
      scrape_all_sources st (runs1 ++ SourceRun.fails msg :: runs2) =
        scrape_all_sources st (runs1 ++ runs2)) ∧
    scrape_all_sources st runs = (deduplicate_links st (combineAll runs)).2.1 ∧
    getProto (combineAll runs) p =
      (runs.map (fun r => getProto (scrape_telegram_channel r) p)).flatten ∧
    (∀ posts,
      getProto (scrape_telegram_channel (SourceRun.ok posts)) p =
        ((posts.filter (fun c => c != "")).map
          (fun c => getProto (extract_links c) p)).flatten) ∧
    (∀ msg, scrape_telegram_channel (SourceRun.fails msg) = emptyLinks) := by
  have hpk : p ∈ emptyLinks.map Prod.fst := by
    rw [emptyLinks_keys]
    exact hp
  refine ⟨?_, rfl, ?_, ?_, fun _ => rfl⟩
  · intro msg runs1 runs2
    unfold scrape_all_sources combineAll
    rw [List.foldl_append, List.foldl_append, List.foldl_cons]
    rw [show scrape_telegram_channel (SourceRun.fails msg) = emptyLinks from rfl]
    rw [combineInto_empty]
  · unfold combineAll
    rw [getProto_foldl_combine _ _ _ _ hpk, getProto_emptyLinks,
      List.nil_append]
  · intro posts
    unfold scrape_telegram_channel
    rw [getProto_foldl_combine _ _ _ _ hpk, getProto_emptyLinks,
      List.nil_append]

theorem C5_orchestrator_witness :
    getProto
      (combineAll [SourceRun.ok ["vmess://x abc", ""],
        SourceRun.fails "network down"]) "vmess" =
      ([SourceRun.ok ["vmess://x abc", ""],
        SourceRun.fails "network down"].map
        (fun r => getProto (scrape_telegram_channel r) "vmess")).flatten :=
  (C5_orchestrator initChecker
    [SourceRun.ok ["vmess://x abc", ""], SourceRun.fails "network down"]
    "vmess" (by decide)).2.2.1

/-! ### Claim C9 — outbound links of a parsed post (`scrapper.py`)

A post's `<a>` elements are the environment: each anchor carries its raw
`href` attribute and its parent's classes.  `urllib.parse.urljoin` is
modelled on the cases these URLs exercise: a URL with a scheme is returned
unchanged, a root-relative path replaces everything after the base URL's
host, and any other relative path replaces the base URL's last segment
(query/fragment-only references and empty URLs do not occur here and are
outside the model). -/

structure Anchor where
  href : String
  parentClasses : List String

/-- `raw_url.replace('//t.me/', '//t.me/s/')` (left-to-right,
non-overlapping). -/
def replaceTme : List Char → List Char
  | '/' :: '/' :: 't' :: '.' :: 'm' :: 'e' :: '/' :: rest =>
    '/' :: '/' :: 't' :: '.' :: 'm' :: 'e' :: '/' :: 's' :: '/' :: replaceTme rest
  | c :: rest => c :: replaceTme rest
  | [] => []

/-- Tail of `_SINGLE_MEDIA_LINK_PATTERN` after the channel segment:
`/\d+\?single$`. -/
def matchTailSM : List Char → Bool
  | '/' :: rest =>
    (rest.takeWhile isDigitCh).length ≥ 1 &&
    rest.drop ((rest.takeWhile isDigitCh).length) == "?single".data
  | _ => false

/-- `_SINGLE_MEDIA_LINK_PATTERN.match`:
`^https://t\.me/[^/]+/\d+\?single$`. -/
def isSingleMediaLink (l : List Char) : Bool :=
  startsWithL "https://t.me/".data l &&
  ((l.drop 13).takeWhile (fun c => c != '/')).length ≥ 1 &&
  matchTailSM ((l.drop 13).drop
    (((l.drop 13).takeWhile (fun c => c != '/')).length))

/-- The part of a URL after `://` (callers guard on scheme presence). -/
def afterScheme : List Char → List Char
  | ':' :: '/' :: '/' :: rest => rest
  | _ :: rest => afterScheme rest
  | [] => []

/-- `urllib.parse.urljoin(base, url)` on the three URL shapes that occur. -/
def urljoin (base url : String) : String :=
  if (beforeScheme url.data).length != url.data.length then url
  else if startsWithL "/".data url.data then
    String.mk (beforeScheme base.data ++ "://".data ++
      ((afterScheme base.data).takeWhile (fun c => c != '/')) ++ url.data)
  else
    String.mk (((beforeLast '/' base.data).getD base.data) ++ '/' :: url.data)

/-- The three `continue` guards of `_extract_outlinks`, applied to the raw
`href` attribute (before `urljoin`). -/
def skipAnchor (a : Anchor) (raw_url canonical_url : String) : Bool :=
  a.parentClasses.contains "tgme_widget_message_user" ||
  a.parentClasses.contains "tgme_widget_message_author" ||
  a.href == raw_url || a.href == canonical_url ||
  isSingleMediaLink a.href.data

/-- `TelegramChannelScraper._extract_outlinks`. -/
def extract_outlinks (anchors : List Anchor)
    (page_url raw_url canonical_url : String) : List String :=
  anchors.foldl (fun outlinks a =>
    if skipAnchor a raw_url canonical_url then outlinks
    else if outlinks.contains (urljoin page_url a.href) then outlinks
    else outlinks ++ [urljoin page_url a.href]) []

/-- The spec's words for the shape of the outbound-link list: the resolved
links, unique, in order of first appearance. -/
def dedupKeepFirst (l : List String) : List String :=
  l.foldl (fun acc x => if acc.contains x then acc else acc ++ [x]) []

theorem dedupFold_nodup :
    ∀ (l acc : List String), acc.Nodup →
      (l.foldl (fun acc x => if acc.contains x then acc else acc ++ [x])
        acc).Nodup := by
  intro l
  induction l with
  | nil =>
    intro acc h
    exact h
  | cons y rest ih =>
    intro acc h
    rw [List.foldl_cons]
    by_cases hc : acc.contains y = true
    · rw [if_pos hc]
      exact ih acc h
    · rw [if_neg hc]
      refine ih (acc ++ [y]) ?_
      have hy : y ∉ acc := by simpa using hc
      simp [List.nodup_append, h, hy]

theorem dedupFold_mem :
    ∀ (l acc : List String) (x : String),
      (x ∈ l.foldl (fun acc x => if acc.contains x then acc else acc ++ [x])
          acc) ↔ x ∈ acc ∨ x ∈ l := by
  intro l
  induction l with
  | nil =>
    intro acc x
    simp
  | cons y rest ih =>
    intro acc x
    rw [List.foldl_cons]
    by_cases hc : acc.contains y = true
    · rw [if_pos hc]
      rw [ih acc x]
      constructor
      · rintro (h | h)
        · exact Or.inl h
        · exact Or.inr (List.mem_cons_of_mem y h)
      · rintro (h | h)
        · exact Or.inl h
        · rcases List.mem_cons.mp h with h2 | h2
          · subst h2
            exact Or.inl (by simpa using hc)
          · exact Or.inr h2
    · rw [if_neg hc]
      rw [ih (acc ++ [y]) x]
      simp only [List.mem_append, List.mem_singleton, List.mem_cons]
      tauto

theorem extract_outlinks_eq_fold (page_url raw_url canonical_url : String) :
    ∀ (anchors : List Anchor) (acc : List String),
      anchors.foldl (fun outlinks a =>
        if skipAnchor a raw_url canonical_url then outlinks
        else if outlinks.contains (urljoin page_url a.href) then outlinks
        else outlinks ++ [urljoin page_url a.href]) acc =
      ((anchors.filter
          (fun a => !(skipAnchor a raw_url canonical_url))).map
        (fun a => urljoin page_url a.href)).foldl
        (fun acc x => if acc.contains x then acc else acc ++ [x]) acc := by
  intro anchors
  induction anchors with
  | nil =>
    intro acc
    rfl
  | cons a rest ih =>
    intro acc
    rw [List.foldl_cons, List.filter_cons]
    by_cases hs : skipAnchor a raw_url canonical_url = true
    · have hf : (!(skipAnchor a raw_url canonical_url)) ≠ true := by simp [hs]
      rw [if_pos hs, if_neg hf]
      exact ih acc
    · have hsf : skipAnchor a raw_url canonical_url = false :=
        Bool.eq_false_iff.mpr hs
      have hft : (!(skipAnchor a raw_url canonical_url)) = true := by
        simp [hsf]
      rw [if_neg hs, if_pos hft, List.map_cons, List.foldl_cons]
      exact ih _

/-- Counterexample to C9 as frozen: the self-link guard compares the raw
`href` attribute against the post's URLs, but `urljoin` runs only after the
guard, so a root-relative `href` resolving to the post's own raw URL
passes the guard and the resolved own URL appears in the outbound list. -/
theorem C9_counterexample :
    extract_outlinks [⟨"/chan/5", []⟩] "https://t.me/s/chan"
        "https://t.me/chan/5"
        (String.mk (replaceTme "https://t.me/chan/5".data)) =
      ["https://t.me/chan/5"] ∧
    "https://t.me/chan/5" ∈
      extract_outlinks [⟨"/chan/5", []⟩] "https://t.me/s/chan"
        "https://t.me/chan/5"
        (String.mk (replaceTme "https://t.me/chan/5".data)) := by
  refine ⟨rfl, ?_⟩
  rw [show extract_outlinks [⟨"/chan/5", []⟩] "https://t.me/s/chan"
      "https://t.me/chan/5"
      (String.mk (replaceTme "https://t.me/chan/5".data)) =
    ["https://t.me/chan/5"] from rfl]
  exact List.mem_singleton.mpr rfl

/-- C9 (amended): for every parsed post the outbound-link list is
duplicate-free, consists exactly of the resolved hrefs of the
non-skipped anchors in order of first appearance, and — whenever every
anchor's href is absolute (a `urljoin` fixed point, the shape the guard
was written for) — never contains the post's own raw or canonical URL.
A root-relative href that resolves to the post's own URL defeats the
guard (`C9_counterexample`). -/
theorem C9_outlinks_invariant (anchors : List Anchor)
    (page_url raw_url canonical_url : String) :
    (extract_outlinks anchors page_url raw_url canonical_url).Nodup ∧
    extract_outlinks anchors page_url raw_url canonical_url =
      dedupKeepFirst ((anchors.filter
        (fun a => !(skipAnchor a raw_url canonical_url))).map
        (fun a => urljoin page_url a.href)) ∧
    ((∀ a ∈ anchors, urljoin page_url a.href = a.href) →
      raw_url ∉ extract_outlinks anchors page_url raw_url canonical_url ∧
      canonical_url ∉ extract_outlinks anchors page_url raw_url canonical_url)
    := by
  have heq : extract_outlinks anchors page_url raw_url canonical_url =
      dedupKeepFirst ((anchors.filter
        (fun a => !(skipAnchor a raw_url canonical_url))).map
        (fun a => urljoin page_url a.href)) :=
    extract_outlinks_eq_fold page_url raw_url canonical_url anchors []
  refine ⟨?_, heq, ?_⟩
  · rw [heq]
    exact dedupFold_nodup _ [] List.nodup_nil
  · intro hfix
    have key : ∀ x, x ∈ extract_outlinks anchors page_url raw_url
        canonical_url → x ≠ raw_url ∧ x ≠ canonical_url := by
      intro x hx
      rw [heq] at hx
      rcases (dedupFold_mem _ [] x).mp hx with h | h
      · simp at h
      · obtain ⟨a, ha, hurl⟩ := List.mem_map.mp h
        obtain ⟨hmem, hskip⟩ := List.mem_filter.mp ha
        have hskipf : skipAnchor a raw_url canonical_url = false := by
          simpa using hskip
        rw [hfix a hmem] at hurl
        subst hurl
        constructor
        · intro hcon
          have ht : skipAnchor a raw_url canonical_url = true := by
            simp [skipAnchor, hcon]
          rw [ht] at hskipf
          exact Bool.noConfusion hskipf
        · intro hcon
          have ht : skipAnchor a raw_url canonical_url = true := by
            simp [skipAnchor, hcon]
          rw [ht] at hskipf
          exact Bool.noConfusion hskipf
    exact ⟨fun hmem => (key raw_url hmem).1 rfl,
      fun hmem => (key canonical_url hmem).2 rfl⟩

theorem C9_outlinks_invariant_witness :
    (extract_outlinks [⟨"https://example.com/a", []⟩] "https://t.me/s/chan"
      "https://t.me/chan/5" "https://t.me/s/chan/5").Nodup ∧
    "https://t.me/chan/5" ∉
      extract_outlinks [⟨"https://example.com/a", []⟩] "https://t.me/s/chan"
        "https://t.me/chan/5" "https://t.me/s/chan/5" ∧
    "https://t.me/s/chan/5" ∉
      extract_outlinks [⟨"https://example.com/a", []⟩] "https://t.me/s/chan"
        "https://t.me/chan/5" "https://t.me/s/chan/5" :=
  ⟨(C9_outlinks_invariant [⟨"https://example.com/a", []⟩] "https://t.me/s/chan"
      "https://t.me/chan/5" "https://t.me/s/chan/5").1,
   ((C9_outlinks_invariant [⟨"https://example.com/a", []⟩] "https://t.me/s/chan"
      "https://t.me/chan/5" "https://t.me/s/chan/5").2.2
     (by
       intro a ha
       fin_cases ha
       rfl)).1,
   ((C9_outlinks_invariant [⟨"https://example.com/a", []⟩] "https://t.me/s/chan"
      "https://t.me/chan/5" "https://t.me/s/chan/5").2.2
     (by
       intro a ha
       fin_cases ha
       rfl)).2⟩

end V2
